import Mathlib

/-!
Verification of the devmate text-transformation backend
(`src/src-tauri/src/lib.rs`).

The Rust source is shallowly embedded: every Rust function keeps its name
(`format_json`, `format_xml`, `parse_jwt`, `decode_jwt_part`, `encode_base64`,
`decode_base64`, `summarize_json`, `generate_json_summary`,
`calculate_json_stats`, `store_raw_content`, `get_content_chunk`,
`get_content_info`, `clear_content`, `format_text`).  Rust `String`s are Lean
`String`s (lists of Unicode scalar values); Rust byte offsets are modelled by
an explicit UTF-8 byte encoding.  Fallible Rust functions returning
`Result<T, String>` become `Except String T`; uses of index/slice expressions
that can panic are modelled with an explicit `panic` outcome.

Library behavior that the repository only calls (serde_json, the base64
crate, `str` primitives of the Rust standard library) is re-modelled here;
each such definition carries a doc comment saying what it models.
-/

namespace Devmate

/-- Models Rust `char::is_whitespace`: the Unicode `White_Space` property. -/
def isRustWs (c : Char) : Bool :=
  c = ' ' || c = '\t' || c = '\n' || c = '\x0b' || c = '\x0c' || c = '\r' ||
  c.toNat = 0x85 || c.toNat = 0xA0 || c.toNat = 0x1680 ||
  (0x2000 ≤ c.toNat && c.toNat ≤ 0x200A) ||
  c.toNat = 0x2028 || c.toNat = 0x2029 || c.toNat = 0x202F ||
  c.toNat = 0x205F || c.toNat = 0x3000

/-- Drops the longest whitespace prefix (helper for `rustTrim`). -/
def dropWsLeft (l : List Char) : List Char :=
  l.dropWhile isRustWs

/-- Models Rust `str::trim`: removes leading and trailing Unicode
whitespace. -/
def rustTrim (l : List Char) : List Char :=
  ((dropWsLeft l.reverse).reverse |> dropWsLeft)

/-- Models Rust `str::split('.')`: the list of (possibly empty) runs of
characters separated by `'.'`; splitting the empty string yields `[[]]`. -/
def splitDot : List Char → List (List Char)
  | [] => [[]]
  | c :: cs =>
    if c = '.' then
      [] :: splitDot cs
    else
      match splitDot cs with
      | [] => [[c]]
      | p :: ps => (c :: p) :: ps

/-- Models Rust `str::lines`: splits at `'\n'` or `"\r\n"`, with the final
line ending optional; the empty string has no lines. -/
def rustLines : List Char → List (List Char)
  | [] => []
  | '\r' :: '\n' :: cs => [] :: rustLines cs
  | '\n' :: cs => [] :: rustLines cs
  | c :: cs =>
    match rustLines cs with
    | [] => [[c]]
    | p :: ps => (c :: p) :: ps

/-- The number of bytes in the UTF-8 encoding of a character (Rust
`char::len_utf8`). -/
def utf8Len (c : Char) : Nat :=
  if c.toNat < 0x80 then 1
  else if c.toNat < 0x800 then 2
  else if c.toNat < 0x10000 then 3
  else 4

/-- The UTF-8 encoding of one character, as numeric bytes. -/
def utf8EncodeChar (c : Char) : List Nat :=
  if c.toNat < 0x80 then [c.toNat]
  else if c.toNat < 0x800 then [0xC0 + c.toNat / 64, 0x80 + c.toNat % 64]
  else if c.toNat < 0x10000 then
    [0xE0 + c.toNat / 4096, 0x80 + (c.toNat / 64) % 64, 0x80 + c.toNat % 64]
  else
    [0xF0 + c.toNat / 262144, 0x80 + (c.toNat / 4096) % 64,
     0x80 + (c.toNat / 64) % 64, 0x80 + c.toNat % 64]

/-- The UTF-8 encoding of a string, as numeric bytes (Rust
`str::as_bytes`). -/
def utf8Bytes (l : List Char) : List Nat :=
  l.flatMap utf8EncodeChar

/-- Rust `str::len`: the length in bytes of the UTF-8 encoding. -/
def byteLen (l : List Char) : Nat :=
  (utf8Bytes l).length

/-- Whether byte offset `n` falls on a character boundary of the UTF-8
encoding of `l` (Rust `str::is_char_boundary`, except that offsets past the
end also count as non-boundaries here). -/
def isCharBoundary : List Char → Nat → Bool
  | _, 0 => true
  | [], _ + 1 => false
  | c :: cs, n + 1 =>
    if utf8Len c ≤ n + 1 then isCharBoundary cs (n + 1 - utf8Len c)
    else false

/-- The characters whose UTF-8 encoding occupies the first `n` bytes of the
encoding of `l`; `none` when `n` is not a character boundary (a Rust byte
slice `&s[..n]` panics there). -/
def takeBytes : Nat → List Char → Option (List Char)
  | 0, _ => some []
  | _ + 1, [] => none
  | n + 1, c :: cs =>
    if utf8Len c ≤ n + 1 then
      (takeBytes (n + 1 - utf8Len c) cs).map (c :: ·)
    else none

/-- The characters remaining after dropping the first `n` bytes of the UTF-8
encoding of `l`; `none` when `n` is not a character boundary. -/
def dropBytes : Nat → List Char → Option (List Char)
  | 0, l => some l
  | _ + 1, [] => none
  | n + 1, c :: cs =>
    if utf8Len c ≤ n + 1 then dropBytes (n + 1 - utf8Len c) cs
    else none

/-- Models the Rust byte-slice expression `&s[a..b]` (with `a ≤ b ≤ s.len()`
already ensured by the caller): `none` models the panic raised when `a` or
`b` is not a character boundary. -/
def sliceBytes (a b : Nat) (l : List Char) : Option (List Char) :=
  (dropBytes a l).bind fun t => takeBytes (b - a) t

/-- Models Rust `String::from_utf8` (strict UTF-8 validation: rejects
invalid lead bytes, bad continuation bytes, overlong encodings, surrogates
and out-of-range code points).  The error is the message used when the
failure is reported. -/
def utf8DecodeBytes : List Nat → Except String (List Char)
  | [] => .ok []
  | b :: rest =>
    if b < 0x80 then
      (utf8DecodeBytes rest).map (Char.ofNat b :: ·)
    else if b < 0xC2 then
      .error "invalid utf-8 sequence"
    else if b < 0xE0 then
      match rest with
      | b1 :: rest' =>
        if 0x80 ≤ b1 && b1 < 0xC0 then
          (utf8DecodeBytes rest').map
            (Char.ofNat ((b - 0xC0) * 64 + (b1 - 0x80)) :: ·)
        else .error "invalid utf-8 sequence"
      | [] => .error "invalid utf-8 sequence"
    else if b < 0xF0 then
      match rest with
      | b1 :: r1 =>
        match r1 with
        | b2 :: rest' =>
          if (0x80 ≤ b1 && b1 < 0xC0) && (0x80 ≤ b2 && b2 < 0xC0) &&
             !(b = 0xE0 && b1 < 0xA0) && !(b = 0xED && 0xA0 ≤ b1) then
            (utf8DecodeBytes rest').map
              (Char.ofNat ((b - 0xE0) * 4096 + (b1 - 0x80) * 64 + (b2 - 0x80))
                :: ·)
          else .error "invalid utf-8 sequence"
        | [] => .error "invalid utf-8 sequence"
      | [] => .error "invalid utf-8 sequence"
    else if b < 0xF5 then
      match rest with
      | b1 :: r1 =>
        match r1 with
        | b2 :: r2 =>
          match r2 with
          | b3 :: rest' =>
            if (0x80 ≤ b1 && b1 < 0xC0) && (0x80 ≤ b2 && b2 < 0xC0) &&
               (0x80 ≤ b3 && b3 < 0xC0) &&
               !(b = 0xF0 && b1 < 0x90) && !(b = 0xF4 && 0x90 ≤ b1) then
              (utf8DecodeBytes rest').map
                (Char.ofNat ((b - 0xF0) * 262144 + (b1 - 0x80) * 4096 +
                  (b2 - 0x80) * 64 + (b3 - 0x80)) :: ·)
            else .error "invalid utf-8 sequence"
          | [] => .error "invalid utf-8 sequence"
        | [] => .error "invalid utf-8 sequence"
      | [] => .error "invalid utf-8 sequence"
    else .error "invalid utf-8 sequence"

/-! ## Base64 (models the `base64` crate's `STANDARD` engine) -/

/-- The standard base64 alphabet: the character for a 6-bit value. -/
def b64Char (n : Nat) : Char :=
  if n < 26 then Char.ofNat (65 + n)
  else if n < 52 then Char.ofNat (97 + (n - 26))
  else if n < 62 then Char.ofNat (48 + (n - 52))
  else if n = 62 then '+'
  else '/'

/-- The 6-bit value of a standard-alphabet character, `none` for characters
outside the alphabet (`'='` included). -/
def b64Val (c : Char) : Option Nat :=
  if 'A' ≤ c && c ≤ 'Z' then some (c.toNat - 65)
  else if 'a' ≤ c && c ≤ 'z' then some (c.toNat - 97 + 26)
  else if '0' ≤ c && c ≤ '9' then some (c.toNat - 48 + 52)
  else if c = '+' then some 62
  else if c = '/' then some 63
  else none

/-- Models `base64::engine::general_purpose::STANDARD.encode`: standard
alphabet, padded output. -/
def b64EncodeBytes : List Nat → List Char
  | [] => []
  | [a] => [b64Char (a / 4), b64Char (a % 4 * 16), '=', '=']
  | [a, b] =>
    [b64Char (a / 4), b64Char (a % 4 * 16 + b / 16), b64Char (b % 16 * 4),
     '=']
  | a :: b :: c :: rest =>
    b64Char (a / 4) :: b64Char (a % 4 * 16 + b / 16) ::
    b64Char (b % 16 * 4 + c / 64) :: b64Char (c % 64) :: b64EncodeBytes rest

/-- Models `base64::engine::general_purpose::STANDARD.decode`: requires
canonical padding to a multiple of four, rejects characters outside the
alphabet and non-zero trailing bits in the final symbol. -/
def b64DecodeBytes : List Char → Except String (List Nat)
  | [] => .ok []
  | w :: x :: y :: z :: rest =>
    if y = '=' then
      if z = '=' && rest.isEmpty then
        match b64Val w, b64Val x with
        | some a, some b =>
          if b % 16 = 0 then .ok [a * 4 + b / 16]
          else .error "Invalid last symbol"
        | _, _ => .error "Invalid symbol"
      else .error "Invalid symbol"
    else if z = '=' then
      if rest.isEmpty then
        match b64Val w, b64Val x, b64Val y with
        | some a, some b, some c =>
          if c % 4 = 0 then .ok [a * 4 + b / 16, b % 16 * 16 + c / 4]
          else .error "Invalid last symbol"
        | _, _, _ => .error "Invalid symbol"
      else .error "Invalid symbol"
    else
      match b64Val w, b64Val x, b64Val y, b64Val z with
      | some a, some b, some c, some d =>
        (b64DecodeBytes rest).map
          (fun bs => (a * 4 + b / 16) :: (b % 16 * 16 + c / 4) ::
            (c % 4 * 64 + d) :: bs)
      | _, _, _, _ => .error "Invalid symbol"
  | _ => .error "Invalid input length"

/-! ## JSON values

Modelled from the spec: the repository delegates JSON parsing and
pretty-printing to a structural JSON library (`serde_json`); the spec
specifies around it only that text is "parsed as a generic JSON value" and
"re-serialized with canonical multi-line pretty-printing (2-space indent
convention)", with object entries kept in insertion order.  The library is
re-modelled here accordingly.  Two deliberate restrictions of the modelled
domain, noted where they occur: JSON numbers are integers (the spec does not
specify float re-serialization), and `\uXXXX` escapes denoting UTF-16
surrogate halves are rejected. -/

/-- A generic JSON value (`serde_json::Value`); objects keep insertion
order. -/
inductive JsonValue where
  | null
  | bool (b : Bool)
  | num (n : Int)
  | str (s : String)
  | arr (elems : List JsonValue)
  | obj (members : List (String × JsonValue))

/-- Map insert with replacement, keeping the position of an existing key
(`serde_json::Map::insert` under insertion-order semantics). -/
def insertKV : List (String × JsonValue) → String → JsonValue →
    List (String × JsonValue)
  | [], k, v => [(k, v)]
  | (k', v') :: rest, k, v =>
    if k' = k then (k', v) :: rest else (k', v') :: insertKV rest k v

/-- Builds an object member list by inserting the raw parsed pairs in
order (later duplicate keys overwrite earlier ones). -/
def buildObj (pairs : List (String × JsonValue)) :
    List (String × JsonValue) :=
  pairs.foldl (fun m kv => insertKV m kv.1 kv.2) []

/-- No key occurs twice in a member list. -/
def keysNodup : List (String × JsonValue) → Bool
  | [] => true
  | m :: ms => !((ms.map Prod.fst).contains m.1) && keysNodup ms

mutual

/-- Well-formedness of a JSON value: every object has distinct keys.
Values produced by the parser satisfy this. -/
def wfB : JsonValue → Bool
  | .null => true
  | .bool _ => true
  | .num _ => true
  | .str _ => true
  | .arr xs => wfL xs
  | .obj ms => keysNodup ms && wfM ms

/-- `wfB` on every element of a list. -/
def wfL : List JsonValue → Bool
  | [] => true
  | x :: xs => wfB x && wfL xs

/-- `wfB` on every member value of a list. -/
def wfM : List (String × JsonValue) → Bool
  | [] => true
  | m :: ms => wfB m.2 && wfM ms

end

/-! ### Pretty printer (`serde_json::to_string_pretty`) -/

/-- Lower-case hexadecimal digit. -/
def hexDigit (n : Nat) : Char :=
  if n < 10 then Char.ofNat (48 + n) else Char.ofNat (97 + (n - 10))

/-- How `serde_json` escapes one character inside a JSON string literal. -/
def escChar (c : Char) : List Char :=
  if c = '"' then ['\\', '"']
  else if c = '\\' then ['\\', '\\']
  else if c = '\x08' then ['\\', 'b']
  else if c = '\t' then ['\\', 't']
  else if c = '\n' then ['\\', 'n']
  else if c = '\x0c' then ['\\', 'f']
  else if c = '\r' then ['\\', 'r']
  else if c.toNat < 0x20 then
    ['\\', 'u', '0', '0', hexDigit (c.toNat / 16), hexDigit (c.toNat % 16)]
  else [c]

/-- A JSON string literal: quote, escaped body, quote. -/
def printStringChars (l : List Char) : List Char :=
  '"' :: l.flatMap escChar ++ ['"']

/-- Decimal digit character. -/
def digitChar (n : Nat) : Char := Char.ofNat (48 + n)

/-- Decimal rendering of a natural number. -/
def printNatChars (n : Nat) : List Char :=
  if n < 10 then [digitChar n]
  else printNatChars (n / 10) ++ [digitChar (n % 10)]
termination_by n
decreasing_by simp_wf; omega

/-- Decimal rendering of an integer (Rust `itoa`, used by `serde_json`). -/
def printIntChars (n : Int) : List Char :=
  if n < 0 then '-' :: printNatChars n.natAbs else printNatChars n.natAbs

/-- Two spaces per nesting level (the pretty printer's indent unit). -/
def indentChars (d : Nat) : List Char := List.replicate (2 * d) ' '

mutual

/-- Pretty-prints a value at nesting depth `d`, exactly as
`serde_json::to_string_pretty`: empty arrays/objects print as `[]`/`{}`,
non-empty ones put every element on its own line, indented two spaces per
level, with `": "` after object keys. -/
def printVal : Nat → JsonValue → List Char
  | _, .null => ['n', 'u', 'l', 'l']
  | _, .bool true => ['t', 'r', 'u', 'e']
  | _, .bool false => ['f', 'a', 'l', 's', 'e']
  | _, .num n => printIntChars n
  | _, .str s => printStringChars s.data
  | _, .arr [] => ['[', ']']
  | d, .arr (x :: xs) =>
    '[' :: printElems (d + 1) x xs ++ '\n' :: indentChars d ++ [']']
  | _, .obj [] => ['{', '}']
  | d, .obj (m :: ms) =>
    '{' :: printMembers (d + 1) m ms ++ '\n' :: indentChars d ++ ['}']
termination_by _ v => sizeOf v
decreasing_by all_goals (simp_wf; try omega)

/-- Prints `"\n" ++ indent ++ element` for each array element, separated by
commas. -/
def printElems : Nat → JsonValue → List JsonValue → List Char
  | d, x, [] => '\n' :: indentChars d ++ printVal d x
  | d, x, y :: ys =>
    '\n' :: indentChars d ++ printVal d x ++ ',' :: printElems d y ys
termination_by _ x xs => 1 + sizeOf x + sizeOf xs
decreasing_by all_goals (simp_wf; try omega)

/-- Prints `"\n" ++ indent ++ key ++ ": " ++ value` for each object member,
separated by commas. -/
def printMembers : Nat → (String × JsonValue) → List (String × JsonValue) →
    List Char
  | d, (k, v), [] =>
    '\n' :: indentChars d ++ printStringChars k.data ++
    ':' :: ' ' :: printVal d v
  | d, (k, v), m' :: ms =>
    '\n' :: indentChars d ++ printStringChars k.data ++
    ':' :: ' ' :: printVal d v ++ ',' :: printMembers d m' ms
termination_by _ m ms => 1 + sizeOf m + sizeOf ms
decreasing_by all_goals (simp_wf; try omega)

end

/-! ### Parser (`serde_json::from_str::<serde_json::Value>`)

A parse error records its message and the input remaining after the
offending character (`[]` for end-of-input errors); `serde_from_str` turns
that into the line/column pair that `serde_json::Error::line`/`column`
report. -/

/-- A parse error: message plus the input remaining past the error site. -/
structure JsonPErr where
  msg : String
  rest : List Char

/-- JSON insignificant whitespace (space, tab, line feed, carriage
return). -/
def isJsonWs (c : Char) : Bool :=
  c = ' ' || c = '\t' || c = '\n' || c = '\r'

/-- Skips insignificant whitespace. -/
def skipWs (l : List Char) : List Char :=
  l.dropWhile isJsonWs

/-- ASCII decimal digit test. -/
def isDigit (c : Char) : Bool := '0' ≤ c && c ≤ '9'

/-- Value of an ASCII decimal digit. -/
def digitVal (c : Char) : Nat := c.toNat - 48

/-- Splits off the longest leading run of decimal digits. -/
def digitsRun : List Char → List Char × List Char
  | [] => ([], [])
  | c :: cs =>
    if isDigit c then
      let p := digitsRun cs
      (c :: p.1, p.2)
    else ([], c :: cs)

/-- Accumulates a digit list into a number. -/
def digitsVal (acc : Nat) (ds : List Char) : Nat :=
  ds.foldl (fun a d => a * 10 + digitVal d) acc

/-- Value of a hexadecimal digit, `none` for other characters. -/
def hexVal? (c : Char) : Option Nat :=
  if isDigit c then some (c.toNat - 48)
  else if 'a' ≤ c && c ≤ 'f' then some (c.toNat - 87)
  else if 'A' ≤ c && c ≤ 'F' then some (c.toNat - 55)
  else none

/-- Resolution of the single-character string escapes. -/
def simpleEscape? (c : Char) : Option Char :=
  if c = '"' then some '"'
  else if c = '\\' then some '\\'
  else if c = '/' then some '/'
  else if c = 'b' then some '\x08'
  else if c = 'f' then some '\x0c'
  else if c = 'n' then some '\n'
  else if c = 'r' then some '\r'
  else if c = 't' then some '\t'
  else none

/-- Parses the body of a string literal after the opening quote, returning
the decoded characters and the input after the closing quote.  Raw control
characters are rejected, as `serde_json` does; a `\uXXXX` escape denoting a
UTF-16 surrogate half is rejected (model restriction: `serde_json` combines
surrogate pairs, which this embedding does not model). -/
def parseStringBody : List Char → Except JsonPErr (List Char × List Char)
  | [] => .error ⟨"EOF while parsing a string", []⟩
  | c :: r =>
    if c = '"' then .ok ([], r)
    else if c = '\\' then
      match r with
      | [] => .error ⟨"EOF while parsing a string", []⟩
      | e :: r2 =>
        if e = 'u' then
          match r2 with
          | h1 :: h2 :: h3 :: h4 :: r4 =>
            match hexVal? h1, hexVal? h2, hexVal? h3, hexVal? h4 with
            | some a, some b, some c, some d =>
              let v := a * 4096 + b * 256 + c * 16 + d
              if 0xD800 ≤ v && v < 0xE000 then
                .error ⟨"lone leading surrogate in hex escape", r4⟩
              else
                (parseStringBody r4).map fun p => (Char.ofNat v :: p.1, p.2)
            | _, _, _, _ => .error ⟨"invalid escape", r4⟩
          | _ => .error ⟨"EOF while parsing a string", []⟩
        else
          match simpleEscape? e with
          | some ce => (parseStringBody r2).map fun p => (ce :: p.1, p.2)
          | none => .error ⟨"invalid escape", r2⟩
    else if c.toNat < 0x20 then
      .error ⟨"control character (\\u0000-\\u001F) found while parsing a string", r⟩
    else (parseStringBody r).map fun p => (c :: p.1, p.2)

/-- Parses a natural number literal (leading zeros rejected, as in JSON). -/
def parseNatCore : List Char → Except JsonPErr (Nat × List Char)
  | [] => .error ⟨"EOF while parsing a value", []⟩
  | c :: cs =>
    if isDigit c then
      if c = '0' then
        match cs with
        | d :: _ =>
          if isDigit d then .error ⟨"invalid number", cs⟩ else .ok (0, cs)
        | [] => .ok (0, [])
      else
        let p := digitsRun cs
        .ok (digitsVal (digitVal c) p.1, p.2)
    else .error ⟨"invalid number", cs⟩

/-- True when the remaining input continues with a fraction or exponent
part.  Model restriction: the embedding covers integer JSON numbers only
(the spec does not specify float re-serialization), so such input is
rejected rather than parsed as a float. -/
def numTail : List Char → Bool
  | c :: _ => c = '.' || c = 'e' || c = 'E'
  | [] => false

/-- Parses an integer JSON number literal (optional minus sign). -/
def parseNumCore (l : List Char) : Except JsonPErr (Int × List Char) :=
  match l with
  | c :: r =>
    if c = '-' then
      match parseNatCore r with
      | .ok (n, r') =>
        if numTail r' then
          .error ⟨"non-integer number outside modelled domain", r'⟩
        else .ok (-(n : Int), r')
      | .error e => .error e
    else
      match parseNatCore (c :: r) with
      | .ok (n, r') =>
        if numTail r' then
          .error ⟨"non-integer number outside modelled domain", r'⟩
        else .ok ((n : Int), r')
      | .error e => .error e
  | [] =>
    match parseNatCore [] with
    | .ok (n, r') =>
      if numTail r' then
        .error ⟨"non-integer number outside modelled domain", r'⟩
      else .ok ((n : Int), r')
    | .error e => .error e

/-- Consumes an expected keyword tail (`ull`, `rue`, `alse`). -/
def expectTail (kw : List Char) (v : JsonValue) (l : List Char) :
    Except JsonPErr (JsonValue × List Char) :=
  if kw.isPrefixOf l then .ok (v, l.drop kw.length)
  else .error ⟨"expected ident", l.drop kw.length⟩

mutual

/-- Parses one JSON value starting at the first non-whitespace character.
The fuel argument decreases at every nested call and plays the role of
`serde_json`'s recursion limit; `serde_from_str` supplies enough fuel for
any input it is given. -/
def parseValueCore : Nat → List Char → Except JsonPErr (JsonValue × List Char)
  | _, [] => .error ⟨"EOF while parsing a value", []⟩
  | fuel, c :: r =>
    if c = 'n' then expectTail ['u', 'l', 'l'] .null r
    else if c = 't' then expectTail ['r', 'u', 'e'] (.bool true) r
    else if c = 'f' then expectTail ['a', 'l', 's', 'e'] (.bool false) r
    else if c = '"' then
      (parseStringBody r).map fun p => (.str ⟨p.1⟩, p.2)
    else if c = '-' || isDigit c then
      (parseNumCore (c :: r)).map fun p => (.num p.1, p.2)
    else if c = '[' then
      let r1 := skipWs r
      if r1.head? = some ']' then .ok (.arr [], r1.tail)
      else
        match fuel with
        | 0 => .error ⟨"recursion limit exceeded", r1⟩
        | f + 1 =>
          (parseElems f r1).map fun p => (.arr p.1, p.2)
    else if c = '{' then
      let r1 := skipWs r
      if r1.head? = some '}' then .ok (.obj [], r1.tail)
      else
        match fuel with
        | 0 => .error ⟨"recursion limit exceeded", r1⟩
        | f + 1 =>
          (parseMembers f r1).map fun p => (.obj (buildObj p.1), p.2)
    else .error ⟨"expected value", r⟩

/-- Skips whitespace, then parses one value. -/
def parseValue : Nat → List Char → Except JsonPErr (JsonValue × List Char)
  | 0, l => .error ⟨"recursion limit exceeded", l⟩
  | f + 1, l => parseValueCore f (skipWs l)

/-- Parses the elements of a non-empty array, consuming the closing
bracket. -/
def parseElems : Nat → List Char → Except JsonPErr (List JsonValue × List Char)
  | 0, l => .error ⟨"recursion limit exceeded", l⟩
  | f + 1, l =>
    match parseValue f l with
    | .error e => .error e
    | .ok (v, r) =>
      match skipWs r with
      | [] => .error ⟨"EOF while parsing a list", []⟩
      | c :: r2 =>
        if c = ',' then
          (parseElems f r2).map fun p => (v :: p.1, p.2)
        else if c = ']' then .ok ([v], r2)
        else .error ⟨"expected comma or bracket", r2⟩

/-- Parses the members of a non-empty object, consuming the closing
brace. -/
def parseMembers : Nat → List Char →
    Except JsonPErr (List (String × JsonValue) × List Char)
  | 0, l => .error ⟨"recursion limit exceeded", l⟩
  | f + 1, l =>
    match skipWs l with
    | [] => .error ⟨"EOF while parsing an object", []⟩
    | cq :: lr =>
      if cq = '"' then
        match parseStringBody lr with
        | .error e => .error e
        | .ok (k, r) =>
          match skipWs r with
          | [] => .error ⟨"EOF while parsing an object", []⟩
          | cc :: r2 =>
            if cc = ':' then
              match parseValue f r2 with
              | .error e => .error e
              | .ok (v, r3) =>
                match skipWs r3 with
                | [] => .error ⟨"EOF while parsing an object", []⟩
                | cs :: r4 =>
                  if cs = ',' then
                    (parseMembers f r4).map fun p => ((⟨k⟩, v) :: p.1, p.2)
                  else if cs = '}' then .ok ([(⟨k⟩, v)], r4)
                  else .error ⟨"expected comma or brace", r4⟩
            else .error ⟨"expected colon", r2⟩
      else .error ⟨"key must be a string", lr⟩

end

/-- Parses a complete document: one value, then only whitespace to the end
of input. -/
def parseTop (l : List Char) : Except JsonPErr JsonValue :=
  match parseValue (2 * l.length + 2) l with
  | .error e => .error e
  | .ok (v, r) =>
    match skipWs r with
    | [] => .ok v
    | c :: r2 => .error ⟨"trailing characters", (c :: r2).tail⟩

/-- Line (1-based) and column of the position after consuming `p`
characters of `l`; the column counts characters since the last line feed,
the convention of `serde_json::Error::line`/`column`. -/
def lineColOf (l : List Char) (p : Nat) : Nat × Nat :=
  let consumed := l.take p
  (1 + consumed.count '\n', (consumed.reverse.takeWhile (· ≠ '\n')).length)

/-- Models `serde_json::from_str::<serde_json::Value>`: the error carries
the reported line, column and message. -/
def serde_from_str (s : String) : Except (Nat × Nat × String) JsonValue :=
  match parseTop s.data with
  | .ok v => .ok v
  | .error e =>
    let p := s.data.length - e.rest.length
    let lc := lineColOf s.data p
    .error (lc.1, lc.2, e.msg)

/-- Models the `Display` rendering of a `serde_json::Error` (used where the
Rust code formats the error with `{}`). -/
def serdeErrDisplay (l c : Nat) (m : String) : String :=
  m ++ " at line " ++ toString l ++ " column " ++ toString c

/-- Models `serde_json::to_string_pretty` (which cannot fail on a
`serde_json::Value`). -/
def serde_to_string_pretty (v : JsonValue) : String :=
  ⟨printVal 0 v⟩

/-! ## The formatter components (`src/src-tauri/src/lib.rs`) -/

/-- `format_json` (lib.rs 45-82): pretty-print on success; on failure
compose the caret-marker diagnostic from the parser-reported line and
column. -/
def format_json (text : String) : Except String String :=
  match serde_from_str text with
  | .ok parsed => .ok (serde_to_string_pretty parsed)
  | .error (line, column, msg) =>
    let lines := rustLines text.data
    let error_line := lines.getD (line - 1) []
    let marker := List.replicate column '-' ++ ['^']
    .error ("Parse error on line " ++ toString line ++ " column " ++
      toString (column + 1) ++ ":\n" ++ String.mk error_line ++ "\n" ++
      String.mk marker ++ "\n" ++ serdeErrDisplay line column msg)

/-- Scans for the closing `'>'` of a tag: the tag body and the input after
the `'>'`, or `none` when no `'>'` remains (lib.rs 105-112). -/
def xmlFindTag : List Char → Option (List Char × List Char)
  | [] => none
  | c :: cs =>
    if c = '>' then some ([], cs)
    else (xmlFindTag cs).map fun p => (c :: p.1, p.2)

/-- Collects a text run up to the next `'<'` (lib.rs 154-166). -/
def xmlTextRun : List Char → List Char × List Char
  | [] => ([], [])
  | c :: cs =>
    if c = '<' then ([], c :: cs)
    else
      let p := xmlTextRun cs
      (c :: p.1, p.2)

/-- `"  ".repeat(depth.max(0) as usize)` over a signed depth. -/
def indent2 (depth : Int) : List Char :=
  List.replicate (2 * (max depth 0).toNat) ' '

/-- The single-pass re-indenting loop of `format_xml` (lib.rs 102-175);
the fuel is one more than the remaining input length and cannot run out
because every iteration consumes at least one character. -/
def xmlLoop : Nat → List Char → Int → List Char → Bool →
    Except String (List Char)
  | 0, _, _, _, _ => .error "fuel exhausted"
  | _ + 1, [], depth, formatted, _ =>
    if depth ≠ 0 then .error "Invalid XML: Unbalanced tags detected"
    else .ok formatted
  | fuel + 1, c :: cs, depth, formatted, lastText =>
    if c = '<' then
      match xmlFindTag cs with
      | none => .error "Invalid XML: Unclosed tag found"
      | some (tagContent, rest) =>
        let isClosing := tagContent.head? = some '/'
        let isSelfClosing := tagContent.getLast? = some '/'
        if isClosing then
          let depth' := depth - 1
          let withBreak :=
            if !lastText then formatted ++ '\n' :: indent2 depth'
            else formatted
          xmlLoop fuel rest depth'
            (withBreak ++ '<' :: tagContent ++ ['>']) false
        else
          let withBreak := if formatted ≠ [] then formatted ++ ['\n'] else formatted
          let withIndent := withBreak ++ indent2 depth
          let depth' := if !isSelfClosing then depth + 1 else depth
          xmlLoop fuel rest depth'
            (withIndent ++ '<' :: tagContent ++ ['>']) false
    else if !(isRustWs c) then
      let p := xmlTextRun (c :: cs)
      let t := rustTrim p.1
      if t ≠ [] then xmlLoop fuel p.2 depth (formatted ++ t) true
      else xmlLoop fuel p.2 depth formatted lastText
    else xmlLoop fuel cs depth formatted lastText

/-- `format_xml` (lib.rs 84-183): trims, validates the outer angle
brackets, and re-indents by tag nesting depth. -/
def format_xml (text : String) : Except String String :=
  let trimmed := rustTrim text.data
  if trimmed.isEmpty then .error "Empty XML input"
  else if !(trimmed.head? = some '<' && trimmed.getLast? = some '>') then
    .error "Invalid XML: Must start with '<' and end with '>'"
  else (xmlLoop (trimmed.length + 1) trimmed 0 [] false).map String.mk

/-- The `while padded.len() % 4 != 0` padding loop of `decode_jwt_part`
(lib.rs 251-254). -/
def padB64 (l : List Char) : List Char :=
  if l.length % 4 = 0 then l
  else if l.length % 4 = 1 then l ++ ['=', '=', '=']
  else if l.length % 4 = 2 then l ++ ['=', '=']
  else l ++ ['=']

/-- `decode_jwt_part` (lib.rs 249-276): pad, map the URL-safe alphabet to
the standard one, base64-decode, UTF-8-decode, JSON-parse. -/
def decode_jwt_part (encoded : List Char) : Except String JsonValue :=
  let padded := padB64 encoded
  let standard_base64 :=
    padded.map fun c => if c = '-' then '+' else if c = '_' then '/' else c
  match b64DecodeBytes standard_base64 with
  | .ok decoded_bytes =>
    match utf8DecodeBytes decoded_bytes with
    | .ok decoded_chars =>
      match serde_from_str ⟨decoded_chars⟩ with
      | .ok json_value => .ok json_value
      | .error (l, c, m) =>
        .error ("Invalid JSON in JWT part: " ++ serdeErrDisplay l c m)
    | .error e => .error ("Invalid UTF-8 in JWT part: " ++ e)
  | .error e => .error ("Invalid base64 encoding: " ++ e)

/-- `parse_jwt` (lib.rs 185-247).  The `serde_json::Map` built by the
source receives the keys `header`, `payload`, `signature`, `token_parts`
in that order, which is also their order in the rendered output (modelled
from the spec: object entries keep insertion order). -/
def parse_jwt (token : String) : Except String String :=
  let tok := rustTrim token.data
  if tok.isEmpty then .error "Empty JWT token"
  else
    match splitDot tok with
    | [p0, p1, p2] =>
      match decode_jwt_part p0 with
      | .error e => .error ("Failed to decode JWT header: " ++ e)
      | .ok header =>
        match decode_jwt_part p1 with
        | .error e => .error ("Failed to decode JWT payload: " ++ e)
        | .ok payload =>
          .ok (serde_to_string_pretty (.obj
            [("header", header),
             ("payload", payload),
             ("signature", .str ("Signature (base64): " ++ ⟨p2⟩)),
             ("token_parts", .obj
               [("header", .str ⟨p0⟩),
                ("payload", .str ⟨p1⟩),
                ("signature", .str ⟨p2⟩)])]))
    | _ => .error "Invalid JWT format. Expected 3 parts separated by dots."

/-- `encode_base64` (lib.rs 278-283). -/
def encode_base64 (text : String) : Except String String :=
  if text.data.isEmpty then .ok ""
  else .ok ⟨b64EncodeBytes (utf8Bytes text.data)⟩

/-- `decode_base64` (lib.rs 285-297). -/
def decode_base64 (text : String) : Except String String :=
  let t := rustTrim text.data
  if t.isEmpty then .ok ""
  else
    match b64DecodeBytes t with
    | .ok decoded_bytes =>
      match utf8DecodeBytes decoded_bytes with
      | .ok decoded_chars => .ok (⟨decoded_chars⟩ : String)
      | .error e => .error ("Invalid UTF-8 in decoded data: " ++ e)
    | .error e => .error ("Invalid base64 encoding: " ++ e)

/-! ## JSON summarizer and statistics -/

/-- `get_value_type` (lib.rs 422-431). -/
def get_value_type : JsonValue → String
  | .obj _ => "Object"
  | .arr _ => "Array"
  | .str _ => "String"
  | .num _ => "Number"
  | .bool _ => "Boolean"
  | .null => "null"

/-- First-occurrence-order deduplication of the element type names.  The
source collects them into a `std::collections::HashSet`, whose iteration
order is unspecified (the spec says the mixed-type list order must not be
relied upon); the model fixes first-occurrence order as a representative. -/
def dedupTypes (ts : List String) : List String :=
  ts.foldl (fun acc t => if acc.contains t then acc else acc ++ [t]) []

mutual

/-- `generate_json_summary` (lib.rs 334-420).  `none` models the panic of
the byte slice `&s[..47]` when byte 47 of a long string is not a character
boundary. -/
def generate_json_summary : JsonValue → String → Nat → Option String
  | .obj members, key, depth =>
    let indent := String.mk (indentChars depth)
    let header :=
      if depth = 0 then
        indent ++ "📁 " ++ key ++ " (Object with " ++
        toString members.length ++ " keys)\n"
      else
        indent ++ "📁 " ++ key ++ ": Object (" ++
        toString members.length ++ " keys)\n"
    (summaryMembers members (depth + 1)).map (header ++ ·)
  | .arr elems, key, depth =>
    let indent := String.mk (indentChars depth)
    let header :=
      indent ++ "📋 " ++ key ++ ": Array (" ++ toString elems.length ++
      " items)\n"
    match elems with
    | [] => some header
    | e0 :: _ =>
      let firstType := get_value_type e0
      let allSame := elems.all fun v => get_value_type v == firstType
      let typeLine :=
        if allSame then
          indent ++ "   └─ All items are: " ++ firstType ++ "\n"
        else
          indent ++ "   └─ Mixed types: " ++
          String.intercalate ", " (dedupTypes (elems.map get_value_type)) ++
          "\n"
      match e0 with
      | .obj _ =>
        (generate_json_summary e0 "item" (depth + 2)).map fun s =>
          header ++ typeLine ++ indent ++ "   └─ First item structure:\n" ++ s
      | _ => some (header ++ typeLine)
  | .str s, key, depth =>
    let indent := String.mk (indentChars depth)
    let slen := byteLen s.data
    let preview? :=
      if slen > 50 then (takeBytes 47 s.data).map (fun p => String.mk p ++ "...")
      else some s
    preview?.map fun preview =>
      indent ++ "📝 " ++ key ++ ": String (" ++ toString slen ++
      " chars) - \"" ++ preview ++ "\"\n"
  | .num n, key, depth =>
    some (String.mk (indentChars depth) ++ "🔢 " ++ key ++ ": Number - " ++
      String.mk (printIntChars n) ++ "\n")
  | .bool b, key, depth =>
    some (String.mk (indentChars depth) ++ "✅ " ++ key ++ ": Boolean - " ++
      (if b then "true" else "false") ++ "\n")
  | .null, key, depth =>
    some (String.mk (indentChars depth) ++ "❌ " ++ key ++ ": null\n")

/-- The `for (k, v) in obj.iter()` recursion of the object case. -/
def summaryMembers : List (String × JsonValue) → Nat → Option String
  | [], _ => some ""
  | (k, v) :: rest, depth =>
    match generate_json_summary v k depth with
    | none => none
    | some s => (summaryMembers rest depth).map (s ++ ·)

end

/-- Aggregate counters (lib.rs 433-439). -/
structure JsonStats where
  objects : Nat
  arrays : Nat
  primitives : Nat
  max_depth : Nat
  total_keys : Nat

mutual

/-- `calculate_stats_recursive` (lib.rs 454-475), with the `&mut` counter
threading made explicit. -/
def calculate_stats_recursive : JsonValue → JsonStats → Nat → JsonStats
  | v, stats, depth =>
    let stats := { stats with max_depth := max stats.max_depth depth }
    match v with
    | .obj ms =>
      statsMembers ms
        { stats with objects := stats.objects + 1,
                     total_keys := stats.total_keys + ms.length }
        (depth + 1)
    | .arr xs =>
      statsElems xs { stats with arrays := stats.arrays + 1 } (depth + 1)
    | _ => { stats with primitives := stats.primitives + 1 }

/-- Folds the statistics over object member values. -/
def statsMembers : List (String × JsonValue) → JsonStats → Nat → JsonStats
  | [], stats, _ => stats
  | (_, v) :: rest, stats, depth =>
    statsMembers rest (calculate_stats_recursive v stats depth) depth

/-- Folds the statistics over array elements. -/
def statsElems : List JsonValue → JsonStats → Nat → JsonStats
  | [], stats, _ => stats
  | v :: rest, stats, depth =>
    statsElems rest (calculate_stats_recursive v stats depth) depth

end

/-- `calculate_json_stats` (lib.rs 441-452). -/
def calculate_json_stats (v : JsonValue) : JsonStats :=
  calculate_stats_recursive v ⟨0, 0, 0, 0, 0⟩ 0

/-- The outcome of a formatter dispatch: `Ok`, `Err`, or a panic (the
summarizer's string preview can panic; see `generate_json_summary`). -/
inductive FmtResult where
  | ok (s : String)
  | err (e : String)
  | panic

/-- Lifts a non-panicking `Result` into `FmtResult`. -/
def liftE : Except String String → FmtResult
  | .ok s => .ok s
  | .error e => .err e

/-- `summarize_json` (lib.rs 299-332). -/
def summarize_json (text : String) : FmtResult :=
  let trimmed := rustTrim text.data
  if trimmed.isEmpty then .err "Empty JSON input"
  else
    match serde_from_str ⟨trimmed⟩ with
    | .error (l, c, m) => .err ("Invalid JSON: " ++ serdeErrDisplay l c m)
    | .ok parsed_value =>
      match generate_json_summary parsed_value "root" 0 with
      | none => .panic
      | some summary =>
        let stats := calculate_json_stats parsed_value
        .ok ("JSON Structure Summary:\n======================\n\n" ++
          summary ++ "\n\nStatistics:\n-----------\n" ++
          "Total objects: " ++ toString stats.objects ++ "\n" ++
          "Total arrays: " ++ toString stats.arrays ++ "\n" ++
          "Total primitive values: " ++ toString stats.primitives ++ "\n" ++
          "Maximum depth: " ++ toString stats.max_depth ++ "\n" ++
          "Total keys: " ++ toString stats.total_keys ++ "\n")

/-! ## Content storage and the dispatcher -/

/-- `ContentStorage` (lib.rs 478-482).  The `Mutex` around it serializes
access; the embedding models each command as a pure state transformer (lock
poisoning is not modelled). -/
structure ContentStorage where
  raw_content : Option String
  formatted_content : Option String

/-- `store_raw_content` (lib.rs 486-492). -/
def store_raw_content (content : String) (_s : ContentStorage) :
    ContentStorage :=
  { raw_content := some content, formatted_content := none }

/-- The response of `get_content_chunk`, a record in place of the
`serde_json::json!` object with fields `chunk`, `has_more`,
`total_length`, `next_start`; `panic` models the byte-slice panic of
`&content_str[start..end]`. -/
inductive ChunkResult where
  | ok (chunk : String) (has_more : Bool) (total_length next_start : Nat)
  | err (msg : String)
  | panic

/-- `get_content_chunk` (lib.rs 494-535). -/
def get_content_chunk (content_type : String) (start chunk_size : Nat)
    (state : ContentStorage) : ChunkResult :=
  let slot : Option (Option String) :=
    if content_type = "raw" then some state.raw_content
    else if content_type = "formatted" then some state.formatted_content
    else none
  match slot with
  | none => .err "Invalid content type"
  | some none => .err "No content stored"
  | some (some content_str) =>
    let total_length := byteLen content_str.data
    let e := min (start + chunk_size) total_length
    if start ≥ total_length then .ok "" false total_length total_length
    else
      match sliceBytes start e content_str.data with
      | some chunk => .ok ⟨chunk⟩ (decide (e < total_length)) total_length e
      | none => .panic

/-- The response of `get_content_info`, a record in place of the
`serde_json::json!` object. -/
structure ContentInfo where
  has_raw : Bool
  has_formatted : Bool
  raw_length : Nat
  formatted_length : Nat

/-- `get_content_info` (lib.rs 537-550). -/
def get_content_info (s : ContentStorage) : ContentInfo :=
  { has_raw := s.raw_content.isSome
    has_formatted := s.formatted_content.isSome
    raw_length := ((s.raw_content.map fun c => byteLen c.data).getD 0)
    formatted_length := ((s.formatted_content.map fun c => byteLen c.data).getD 0) }

/-- `clear_content` (lib.rs 552-558). -/
def clear_content (_s : ContentStorage) : ContentStorage :=
  { raw_content := none, formatted_content := none }

/-- `read_large_file_streaming` (lib.rs 560-598), with the file I/O
replaced by passing the file's size and content as arguments; returns the
new store state and the reported `use_streaming` flag. -/
def read_large_file_streaming (file_size : Nat) (content : String)
    (s : ContentStorage) : ContentStorage × Bool :=
  if file_size > 100 * 1024 * 1024 then
    ({ raw_content := some content, formatted_content := none }, true)
  else (s, false)

/-- The `match format_type.as_str()` router of `format_text`
(lib.rs 23-31). -/
def dispatchFormat (format_type : String) (content_to_format : String) :
    FmtResult :=
  if format_type = "json" then liftE (format_json content_to_format)
  else if format_type = "xml" then liftE (format_xml content_to_format)
  else if format_type = "jwt" then liftE (parse_jwt content_to_format)
  else if format_type = "json-summary" then
    summarize_json content_to_format
  else if format_type = "encode" then
    liftE (encode_base64 content_to_format)
  else if format_type = "decode" then
    liftE (decode_base64 content_to_format)
  else .err "Unknown format type"

/-- `format_text` (lib.rs 13-42): dispatch on the format tag, falling back
to the stored raw content when `text` is empty, and storing a successful
non-codec result as the formatted content. -/
def format_text (text : String) (format_type : String)
    (state : ContentStorage) : FmtResult × ContentStorage :=
  let result :=
    dispatchFormat format_type
      (if text.isEmpty then state.raw_content.getD "" else text)
  match result with
  | .ok formatted =>
    if format_type ≠ "encode" && format_type ≠ "decode" then
      (result, { state with formatted_content := some formatted })
    else (result, state)
  | _ => (result, state)

/-- The store-mutating entry points, for stating reachability
invariants. -/
inductive Op where
  | storeRaw (content : String)
  | clear
  | ingest (file_size : Nat) (content : String)
  | format (text : String) (format_type : String)

/-- The state transition of one entry point. -/
def applyOp : Op → ContentStorage → ContentStorage
  | .storeRaw c, s => store_raw_content c s
  | .clear, s => clear_content s
  | .ingest n c, s => (read_large_file_streaming n c s).1
  | .format t f, s => (format_text t f s).2

/-- The operations that set or clear `raw_content`: `store_raw_content`,
`clear_content`, and the large-file ingestion path. -/
def setsOrClearsRaw : Op → Bool
  | .storeRaw _ => true
  | .clear => true
  | .ingest n _ => n > 100 * 1024 * 1024
  | .format _ _ => false

/-! ## Claims -/

/-- C6: `format_xml "<a><b>text</b></a>"` returns `Ok` with exactly the
three-line output `"<a>\n  <b>text</b>\n</a>"`: the closing `</b>` stays on
the line of the preceding text (the immediately preceding emission was
text), while `</a>` goes on its own line with zero indentation after the
depth is decremented to 0. -/
theorem format_xml_inline_text_close :
    format_xml "<a><b>text</b></a>" = .ok "<a>\n  <b>text</b>\n</a>" := by
  rfl

/-- C5: whenever JSON parsing fails with parser-reported line `l` and
column `c`, `format_json` returns exactly
`"Parse error on line {l} column {c+1}:\n{line l of the input, or empty if
out of range}\n{c dashes}^\n{underlying parser message}"`. -/
theorem format_json_parse_error_diagnostic (text : String) (l c : Nat)
    (m : String) (h : serde_from_str text = .error (l, c, m)) :
    format_json text = .error ("Parse error on line " ++ toString l ++
      " column " ++ toString (c + 1) ++ ":\n" ++
      String.mk ((rustLines text.data).getD (l - 1) []) ++ "\n" ++
      String.mk (List.replicate c '-' ++ ['^']) ++ "\n" ++
      (m ++ " at line " ++ toString l ++ " column " ++ toString c)) := by
  unfold format_json
  rw [h]
  rfl

/-- Witness for C5 at the concrete malformed input `"x"`. -/
theorem format_json_parse_error_diagnostic_witness :
    serde_from_str "x" = .error (1, 1, "expected value") ∧
    format_json "x" =
      .error "Parse error on line 1 column 2:\nx\n-^\nexpected value at line 1 column 1" := by
  refine ⟨by rfl, ?_⟩
  have := format_json_parse_error_diagnostic "x" 1 1 "expected value" (by rfl)
  simpa using this

/-- C8: with empty submitted text, `format_text` processes the stored raw
content (or the empty string); on an empty effective input, `encode` and
`decode` return `Ok("")`, the four structured formats return errors, and
any unknown format tag returns the unsupported-format error. -/
theorem format_text_empty_input_dispatch :
    (∀ (s : ContentStorage) (fmt : String),
      format_text "" fmt s = format_text (s.raw_content.getD "") fmt s) ∧
    (∀ s : ContentStorage, s.raw_content = none ∨ s.raw_content = some "" →
      format_text "" "encode" s = (.ok "", s) ∧
      format_text "" "decode" s = (.ok "", s) ∧
      (∃ e, format_text "" "json" s = (.err e, s)) ∧
      (∃ e, format_text "" "xml" s = (.err e, s)) ∧
      (∃ e, format_text "" "jwt" s = (.err e, s)) ∧
      (∃ e, format_text "" "json-summary" s = (.err e, s)) ∧
      (∀ fmt, fmt ≠ "json" → fmt ≠ "xml" → fmt ≠ "jwt" →
        fmt ≠ "json-summary" → fmt ≠ "encode" → fmt ≠ "decode" →
        format_text "" fmt s = (.err "Unknown format type", s))) := by
  constructor
  · intro s fmt
    unfold format_text
    simp only [String.isEmpty_iff]
    norm_num
  · intro s hraw
    have hs : s.raw_content.getD "" = "" := by
      rcases hraw with h | h <;> rw [h] <;> rfl
    unfold format_text
    rw [hs]
    refine ⟨rfl, rfl, ⟨_, rfl⟩, ⟨_, rfl⟩, ⟨_, rfl⟩, ⟨_, rfl⟩, ?_⟩
    intro fmt h1 h2 h3 h4 h5 h6
    simp [dispatchFormat, h1, h2, h3, h4, h5, h6]

/-- Witness for C8 at the empty store. -/
theorem format_text_empty_input_dispatch_witness :
    format_text "" "encode" ⟨none, none⟩ = (.ok "", ⟨none, none⟩) ∧
    format_text "" "bogus" ⟨none, none⟩ =
      (.err "Unknown format type", ⟨none, none⟩) ∧
    format_text "" "json" ⟨none, none⟩ =
      format_text ((⟨none, none⟩ : ContentStorage).raw_content.getD "")
        "json" ⟨none, none⟩ := by
  obtain ⟨hfall, hempty⟩ := format_text_empty_input_dispatch
  obtain ⟨he, _, _, _, _, _, hunk⟩ := hempty ⟨none, none⟩ (Or.inl rfl)
  exact ⟨he, hunk "bogus" (by decide) (by decide) (by decide) (by decide)
    (by decide) (by decide), hfall ⟨none, none⟩ "json"⟩

/-- C7: `parse_jwt` trims its input, fails on empty input, fails unless
splitting on `'.'` yields exactly 3 segments; the first two segments are
padded with `'='` to a multiple of four, URL-safe characters are replaced,
and they are base64/UTF-8/JSON decoded, any failure being labeled
`Failed to decode JWT header:`/`payload:`; the third segment is never
decoded — the call succeeds whatever it holds, once the first two decode. -/
theorem parse_jwt_structure (token : String) :
    (rustTrim token.data = [] → parse_jwt token = .error "Empty JWT token") ∧
    (rustTrim token.data ≠ [] →
      (splitDot (rustTrim token.data)).length ≠ 3 →
      parse_jwt token =
        .error "Invalid JWT format. Expected 3 parts separated by dots.") ∧
    (∀ seg : List Char, (padB64 seg).length % 4 = 0 ∧
      (padB64 seg).take seg.length = seg ∧
      ∀ c ∈ (padB64 seg).drop seg.length, c = '=') ∧
    (∀ p0 p1 p2, rustTrim token.data ≠ [] →
      splitDot (rustTrim token.data) = [p0, p1, p2] →
      (∀ e, decode_jwt_part p0 = .error e →
        parse_jwt token = .error ("Failed to decode JWT header: " ++ e)) ∧
      (∀ jh e, decode_jwt_part p0 = .ok jh → decode_jwt_part p1 = .error e →
        parse_jwt token = .error ("Failed to decode JWT payload: " ++ e)) ∧
      (∀ jh jp, decode_jwt_part p0 = .ok jh → decode_jwt_part p1 = .ok jp →
        parse_jwt token = .ok (serde_to_string_pretty (.obj
          [("header", jh),
           ("payload", jp),
           ("signature", .str ("Signature (base64): " ++ ⟨p2⟩)),
           ("token_parts", .obj
             [("header", .str ⟨p0⟩),
              ("payload", .str ⟨p1⟩),
              ("signature", .str ⟨p2⟩)])])))) := by
  refine ⟨?_, ?_, ?_, ?_⟩
  · intro h
    unfold parse_jwt
    simp [h, List.isEmpty_iff]
  · intro hne hlen
    unfold parse_jwt
    rw [if_neg (by simpa [List.isEmpty_iff] using hne)]
    rcases hsp : splitDot (rustTrim token.data) with _ | ⟨a, _ | ⟨b, _ | ⟨c, _ | ⟨d, l⟩⟩⟩⟩ <;>
      simp_all [splitDot]
  · intro seg
    have mem3 : ∀ c ∈ (['=', '=', '='] : List Char), c = '=' := by decide
    have mem2 : ∀ c ∈ (['=', '='] : List Char), c = '=' := by decide
    have mem1 : ∀ c ∈ (['='] : List Char), c = '=' := by decide
    unfold padB64
    by_cases h0 : seg.length % 4 = 0
    · rw [if_pos h0]
      exact ⟨h0, by simp, by simp⟩
    · by_cases h1 : seg.length % 4 = 1
      · rw [if_neg h0, if_pos h1]
        refine ⟨by simp only [List.length_append, List.length_cons,
          List.length_nil]; omega, List.take_left _ _, ?_⟩
        rw [List.drop_left]
        exact mem3
      · by_cases h2 : seg.length % 4 = 2
        · rw [if_neg h0, if_neg h1, if_pos h2]
          refine ⟨by simp only [List.length_append, List.length_cons,
            List.length_nil]; omega, List.take_left _ _, ?_⟩
          rw [List.drop_left]
          exact mem2
        · rw [if_neg h0, if_neg h1, if_neg h2]
          have h3 : seg.length % 4 = 3 := by omega
          refine ⟨by simp only [List.length_append, List.length_cons,
            List.length_nil]; omega, List.take_left _ _, ?_⟩
          rw [List.drop_left]
          exact mem1
  · intro p0 p1 p2 hne hsp
    unfold parse_jwt
    rw [if_neg (by simpa [List.isEmpty_iff] using hne), hsp]
    refine ⟨?_, ?_, ?_⟩
    · intro e he
      simp only [he]
    · intro jh e hh he
      simp only [hh, he]
    · intro jh jp hh hp
      simp only [hh, hp]

/-- Witness for C7: the empty token, a two-segment token, a token whose
header segment is not base64, and a fully decodable token whose third
segment is the opaque literal `sig`. -/
theorem parse_jwt_structure_witness :
    parse_jwt "" = .error "Empty JWT token" ∧
    parse_jwt "a.b" =
      .error "Invalid JWT format. Expected 3 parts separated by dots." ∧
    parse_jwt "!.eyJhIjoxfQ.sig" =
      .error ("Failed to decode JWT header: " ++
        ("Invalid base64 encoding: " ++ "Invalid symbol")) ∧
    (∃ out, parse_jwt "eyJhIjoxfQ.eyJiIjoyfQ.sig" = .ok out) := by
  refine ⟨(parse_jwt_structure "").1 rfl,
    (parse_jwt_structure "a.b").2.1 (by decide) (by decide),
    ((parse_jwt_structure "!.eyJhIjoxfQ.sig").2.2.2
      ('!' :: []) "eyJhIjoxfQ".data "sig".data (by decide) (by rfl)).1
      ("Invalid base64 encoding: " ++ "Invalid symbol") (by rfl),
    ⟨_, ((parse_jwt_structure "eyJhIjoxfQ.eyJiIjoyfQ.sig").2.2.2
      "eyJhIjoxfQ".data "eyJiIjoyfQ".data "sig".data (by decide)
      (by rfl)).2.2 _ _ (by rfl) (by rfl)⟩⟩

/-- C3: any operation that sets or clears `raw_content` (`store_raw_content`,
`clear_content`, the large-file ingestion path) leaves `formatted_content`
as `None`; `formatted_content` only becomes `Some` through a successful
`format_text` whose format is neither `encode` nor `decode`, and then
`get_content_info` reports `has_formatted = true`. -/
theorem formatted_content_invalidation (op : Op) (s : ContentStorage) :
    (setsOrClearsRaw op = true → (applyOp op s).formatted_content = none) ∧
    (∀ v, s.formatted_content = none →
      (applyOp op s).formatted_content = some v →
      ∃ text fmt, op = .format text fmt ∧ fmt ≠ "encode" ∧ fmt ≠ "decode" ∧
        (format_text text fmt s).1 = .ok v ∧
        (get_content_info (applyOp op s)).has_formatted = true) := by
  cases op with
  | storeRaw c =>
    refine ⟨fun _ => rfl, fun v h0 hsome => absurd hsome (by simp [applyOp, store_raw_content])⟩
  | clear =>
    refine ⟨fun _ => rfl, fun v h0 hsome => absurd hsome (by simp [applyOp, clear_content])⟩
  | ingest n c =>
    constructor
    · intro h
      simp only [setsOrClearsRaw, decide_eq_true_eq] at h
      simp [applyOp, read_large_file_streaming, h]
    · intro v h0 hsome
      exfalso
      by_cases h : n > 100 * 1024 * 1024 <;>
        simp [applyOp, read_large_file_streaming, h, h0] at hsome
  | format t f =>
    constructor
    · intro h
      simp [setsOrClearsRaw] at h
    · intro v h0 hsome
      refine ⟨t, f, rfl, ?_⟩
      simp only [applyOp, format_text] at hsome
      cases hr : dispatchFormat f (if t.isEmpty then s.raw_content.getD "" else t) with
      | ok out =>
        rw [hr] at hsome
        by_cases hf1 : f = "encode"
        · exfalso
          simp [hf1, h0] at hsome
        · by_cases hf2 : f = "decode"
          · exfalso
            simp [hf2, h0] at hsome
          · simp [hf1, hf2] at hsome
            refine ⟨hf1, hf2, ?_, ?_⟩
            · show (format_text t f s).1 = .ok v
              simp [format_text, hr, hsome, hf1, hf2]
            · simp [get_content_info, applyOp, format_text, hr, hf1, hf2]
      | err e =>
        exfalso
        rw [hr] at hsome
        simp [h0] at hsome
      | panic =>
        exfalso
        rw [hr] at hsome
        simp [h0] at hsome

/-- Evaluation helper: the pretty printer on the single number `1`. -/
theorem format_json_one : format_json "1" = .ok "1" := by
  have h1 : serde_from_str "1" = .ok (.num 1) := by rfl
  unfold format_json
  rw [h1]
  show Except.ok (serde_to_string_pretty (.num 1)) = _
  unfold serde_to_string_pretty
  have hp : printVal 0 (.num 1) = printIntChars 1 := by simp [printVal]
  rw [hp]
  have hn : printIntChars 1 = ['1'] := by
    unfold printIntChars
    rw [if_neg (by omega)]
    unfold printNatChars
    rw [if_pos (by omega)]
    decide
  rw [hn]

/-- Witness for C3: storing raw content clears the formatted slot, and a
successful `format_text` call with format `json` populates it. -/
theorem formatted_content_invalidation_witness :
    (applyOp (.storeRaw "x") ⟨some "a", some "b"⟩).formatted_content = none ∧
    (∃ text fmt, Op.format "1" "json" = .format text fmt ∧ fmt ≠ "encode" ∧
      fmt ≠ "decode" ∧
      (format_text text fmt ⟨none, none⟩).1 = .ok "1" ∧
      (get_content_info
        (applyOp (.format "1" "json") ⟨none, none⟩)).has_formatted = true) :=
  ⟨(formatted_content_invalidation (.storeRaw "x") ⟨some "a", some "b"⟩).1 rfl,
   (formatted_content_invalidation (.format "1" "json") ⟨none, none⟩).2 "1"
     rfl (by
       have hie : ("1" : String).isEmpty = false := by decide
       simp [applyOp, format_text, dispatchFormat, format_json_one, liftE, hie])⟩

/-! ### UTF-8 byte-offset lemmas -/

theorem utf8Len_pos (c : Char) : 0 < utf8Len c := by
  unfold utf8Len
  split
  · norm_num
  · split
    · norm_num
    · split <;> norm_num

theorem utf8EncodeChar_length (c : Char) :
    (utf8EncodeChar c).length = utf8Len c := by
  unfold utf8EncodeChar utf8Len
  by_cases h1 : c.toNat < 0x80
  · simp [h1]
  · by_cases h2 : c.toNat < 0x800
    · simp [h1, h2]
    · by_cases h3 : c.toNat < 0x10000
      · simp [h1, h2, h3]
      · simp [h1, h2, h3]

theorem utf8Bytes_cons (c : Char) (l : List Char) :
    utf8Bytes (c :: l) = utf8EncodeChar c ++ utf8Bytes l := by
  simp [utf8Bytes]

theorem byteLen_cons (c : Char) (l : List Char) :
    byteLen (c :: l) = utf8Len c + byteLen l := by
  simp [byteLen, utf8Bytes_cons, utf8EncodeChar_length]

theorem isCharBoundary_eq_dropBytes_isSome (l : List Char) (n : Nat) :
    isCharBoundary l n = (dropBytes n l).isSome := by
  induction l generalizing n with
  | nil => cases n <;> simp [isCharBoundary, dropBytes]
  | cons c cs ih =>
    cases n with
    | zero => simp [isCharBoundary, dropBytes]
    | succ m =>
      simp only [isCharBoundary, dropBytes]
      split
      · exact ih _
      · simp

theorem isCharBoundary_eq_takeBytes_isSome (l : List Char) (n : Nat) :
    isCharBoundary l n = (takeBytes n l).isSome := by
  induction l generalizing n with
  | nil => cases n <;> simp [isCharBoundary, takeBytes]
  | cons c cs ih =>
    cases n with
    | zero => simp [isCharBoundary, takeBytes]
    | succ m =>
      simp only [isCharBoundary, takeBytes]
      split
      · rw [ih]
        cases takeBytes (m + 1 - utf8Len c) cs <;> simp
      · simp

theorem dropBytes_utf8Bytes (a : Nat) (l t : List Char)
    (h : dropBytes a l = some t) : utf8Bytes t = (utf8Bytes l).drop a := by
  induction l generalizing a with
  | nil =>
    cases a with
    | zero =>
      simp only [dropBytes, Option.some.injEq] at h
      subst h; rfl
    | succ m => simp [dropBytes] at h
  | cons c cs ih =>
    cases a with
    | zero =>
      simp only [dropBytes, Option.some.injEq] at h
      subst h; rfl
    | succ m =>
      simp only [dropBytes] at h
      split at h
      case isTrue hle =>
        have hrec := ih _ h
        rw [utf8Bytes_cons]
        have hm : m + 1 = (utf8EncodeChar c).length + (m + 1 - utf8Len c) := by
          rw [utf8EncodeChar_length]; omega
        rw [hm, List.drop_append]
        exact hrec
      case isFalse => exact absurd h (by simp)

theorem takeBytes_utf8Bytes (n : Nat) (l m : List Char)
    (h : takeBytes n l = some m) : utf8Bytes m = (utf8Bytes l).take n := by
  induction l generalizing n m with
  | nil =>
    cases n with
    | zero =>
      simp only [takeBytes, Option.some.injEq] at h
      subst h; rfl
    | succ k => simp [takeBytes] at h
  | cons c cs ih =>
    cases n with
    | zero =>
      simp only [takeBytes, Option.some.injEq] at h
      subst h; rfl
    | succ k =>
      simp only [takeBytes] at h
      split at h
      case isTrue hle =>
        rcases Option.map_eq_some'.mp h with ⟨m', hm', rfl⟩
        have hrec := ih _ _ hm'
        rw [utf8Bytes_cons, utf8Bytes_cons]
        have hk : k + 1 = (utf8EncodeChar c).length + (k + 1 - utf8Len c) := by
          rw [utf8EncodeChar_length]; omega
        rw [hk, List.take_append, hrec]
      case isFalse => exact absurd h (by simp)

theorem isCharBoundary_dropBytes (a b : Nat) (l t : List Char) (hab : a ≤ b)
    (h : dropBytes a l = some t) :
    isCharBoundary t (b - a) = isCharBoundary l b := by
  induction l generalizing a b with
  | nil =>
    cases a with
    | zero =>
      simp only [dropBytes, Option.some.injEq] at h
      subst h; simp
    | succ m => simp [dropBytes] at h
  | cons c cs ih =>
    cases a with
    | zero =>
      simp only [dropBytes, Option.some.injEq] at h
      subst h; simp
    | succ m =>
      simp only [dropBytes] at h
      split at h
      case isTrue hle =>
        have hpos := utf8Len_pos c
        have hb : isCharBoundary (c :: cs) b = isCharBoundary cs (b - utf8Len c) := by
          cases b with
          | zero => omega
          | succ bb =>
            simp only [isCharBoundary]
            rw [if_pos (by omega)]
        rw [hb]
        have hrec := ih (m + 1 - utf8Len c) (b - utf8Len c) (by omega) h
        have heq : b - utf8Len c - (m + 1 - utf8Len c) = b - (m + 1) := by omega
        rw [heq] at hrec
        exact hrec
      case isFalse => exact absurd h (by simp)

theorem sliceBytes_none_of_bad_boundary (a b : Nat) (l : List Char)
    (hab : a ≤ b)
    (h : ¬(isCharBoundary l a = true ∧ isCharBoundary l b = true)) :
    sliceBytes a b l = none := by
  unfold sliceBytes
  rcases hd : dropBytes a l with _ | t
  · rfl
  · have ha : isCharBoundary l a = true := by
      rw [isCharBoundary_eq_dropBytes_isSome, hd]; rfl
    have hb : isCharBoundary l b = false := by
      rcases Bool.eq_false_or_eq_true (isCharBoundary l b) with htrue | hfalse
      · exact absurd ⟨ha, htrue⟩ h
      · exact hfalse
    have hshift := isCharBoundary_dropBytes a b l t hab hd
    rw [hb] at hshift
    have := isCharBoundary_eq_takeBytes_isSome t (b - a)
    rw [hshift] at this
    rcases htk : takeBytes (b - a) t with _ | m
    · simp [htk]
    · rw [htk] at this
      simp at this

theorem sliceBytes_some_of_boundary (a b : Nat) (l : List Char) (hab : a ≤ b)
    (ha : isCharBoundary l a = true) (hb : isCharBoundary l b = true) :
    ∃ m, sliceBytes a b l = some m ∧
      utf8Bytes m = ((utf8Bytes l).drop a).take (b - a) := by
  have hd : (dropBytes a l).isSome := by
    rw [← isCharBoundary_eq_dropBytes_isSome]; exact ha
  rcases Option.isSome_iff_exists.mp hd with ⟨t, ht⟩
  have hshift := isCharBoundary_dropBytes a b l t hab ht
  rw [hb] at hshift
  have htk : (takeBytes (b - a) t).isSome := by
    rw [← isCharBoundary_eq_takeBytes_isSome]; exact hshift
  rcases Option.isSome_iff_exists.mp htk with ⟨m, hm⟩
  refine ⟨m, ?_, ?_⟩
  · unfold sliceBytes
    rw [ht, Option.some_bind, hm]
  · rw [takeBytes_utf8Bytes _ _ _ hm, dropBytes_utf8Bytes _ _ _ ht]

/-- C1 (amended): `get_content_chunk` fails when the requested slot holds
no content; when `start ≥ total_length` (the stored string's byte length)
it returns the empty chunk with `has_more = false` and
`next_start = total_length`; otherwise, **provided `start` and
`end = min (start+size) total_length` fall on UTF-8 character
boundaries**, it returns the byte substring `[start, end)` with
`has_more = (end < total_length)` and `next_start = end` (without the
proviso the byte slice panics; see the C2 theorem). -/
theorem get_content_chunk_spec (start size : Nat) (state : ContentStorage) :
    (state.raw_content = none →
      get_content_chunk "raw" start size state = .err "No content stored") ∧
    (state.formatted_content = none →
      get_content_chunk "formatted" start size state =
        .err "No content stored") ∧
    (∀ (content : String) (which : String),
      ((which = "raw" ∧ state.raw_content = some content) ∨
       (which = "formatted" ∧ state.formatted_content = some content)) →
      (start ≥ byteLen content.data →
        get_content_chunk which start size state =
          .ok "" false (byteLen content.data) (byteLen content.data)) ∧
      (start < byteLen content.data →
        isCharBoundary content.data start = true →
        isCharBoundary content.data
          (min (start + size) (byteLen content.data)) = true →
        ∃ chunk : String,
          get_content_chunk which start size state =
            .ok chunk
              (decide (min (start + size) (byteLen content.data) <
                byteLen content.data))
              (byteLen content.data)
              (min (start + size) (byteLen content.data)) ∧
          utf8Bytes chunk.data =
            ((utf8Bytes content.data).drop start).take
              (min (start + size) (byteLen content.data) - start))) := by
  refine ⟨?_, ?_, ?_⟩
  · intro h
    simp [get_content_chunk, h]
  · intro h
    simp [get_content_chunk, h]
  · intro content which hw
    have hgcc : get_content_chunk which start size state =
        (let total_length := byteLen content.data
         let e := min (start + size) total_length
         if start ≥ total_length then
           ChunkResult.ok "" false total_length total_length
         else
           match sliceBytes start e content.data with
           | some chunk =>
             ChunkResult.ok ⟨chunk⟩ (decide (e < total_length)) total_length e
           | none => ChunkResult.panic) := by
      rcases hw with ⟨hwq, hsl⟩ | ⟨hwq, hsl⟩ <;> subst hwq <;>
        simp [get_content_chunk, hsl]
    constructor
    · intro hge
      rw [hgcc]
      simp only
      rw [if_pos hge]
    · intro hlt hba hbb
      have hab : start ≤ min (start + size) (byteLen content.data) := by omega
      rcases sliceBytes_some_of_boundary start
        (min (start + size) (byteLen content.data)) content.data hab hba hbb
        with ⟨m, hm, hbytes⟩
      refine ⟨⟨m⟩, ?_, hbytes⟩
      rw [hgcc]
      simp only
      rw [if_neg (by omega), hm]

/-- Witness for C1 at the spec's concrete examples: stored raw content of
length 10, requests `start=10,size=5` and `start=8,size=5`. -/
theorem get_content_chunk_spec_witness :
    get_content_chunk "raw" 10 5 ⟨some "0123456789", none⟩ =
      .ok "" false 10 10 ∧
    (∃ chunk : String,
      get_content_chunk "raw" 8 5 ⟨some "0123456789", none⟩ =
        .ok chunk (decide (min (8 + 5) (byteLen "0123456789".data) <
          byteLen "0123456789".data)) (byteLen "0123456789".data)
          (min (8 + 5) (byteLen "0123456789".data)) ∧
      utf8Bytes chunk.data =
        ((utf8Bytes "0123456789".data).drop 8).take
          (min (8 + 5) (byteLen "0123456789".data) - 8)) := by
  constructor
  · have h := ((get_content_chunk_spec 10 5 ⟨some "0123456789", none⟩).2.2
      "0123456789" "raw" (Or.inl ⟨rfl, rfl⟩)).1 (by decide)
    simpa using h
  · exact ((get_content_chunk_spec 8 5 ⟨some "0123456789", none⟩).2.2
      "0123456789" "raw" (Or.inl ⟨rfl, rfl⟩)).2 (by decide) (by decide)
      (by decide)

/-- Counterexample for C1 as stated: with stored raw content `"é"` (two
bytes, one character) and the request `start=1,size=1`, the start offset is
inside the character, so the code panics on the byte slice instead of
returning a chunk response. -/
theorem get_content_chunk_midchar_counterexample :
    get_content_chunk "raw" 1 1 ⟨some "é", none⟩ = .panic := by rfl

/-- C2 (amended): when the requested slot holds content and
`start < total_length` but `start` or the computed end offset falls inside
a multi-byte character, `get_content_chunk` panics on the byte slice
(`&content_str[start..end]`); it does not fail cleanly.  (The spec
prescribes clean failure only for a reimplementation, as an improvement
over this position-agnostic byte slicing.) -/
theorem get_content_chunk_panics_inside_char (start size : Nat)
    (state : ContentStorage) (content : String) (which : String)
    (hw : (which = "raw" ∧ state.raw_content = some content) ∨
          (which = "formatted" ∧ state.formatted_content = some content))
    (hlt : start < byteLen content.data)
    (hbad : ¬(isCharBoundary content.data start = true ∧
      isCharBoundary content.data
        (min (start + size) (byteLen content.data)) = true)) :
    get_content_chunk which start size state = .panic := by
  have hab : start ≤ min (start + size) (byteLen content.data) := by omega
  have hnone := sliceBytes_none_of_bad_boundary start
    (min (start + size) (byteLen content.data)) content.data hab hbad
  rcases hw with ⟨hwq, hsl⟩ | ⟨hwq, hsl⟩ <;> subst hwq <;>
    simp [get_content_chunk, hsl, if_neg (by omega : ¬start ≥ byteLen content.data), hnone]

/-- Witness for C2 at the concrete input `"héllo"` with `start=2,size=1`:
byte 2 is the continuation byte of `é`. -/
theorem get_content_chunk_panics_inside_char_witness :
    get_content_chunk "raw" 2 1 ⟨some "héllo", none⟩ = .panic :=
  get_content_chunk_panics_inside_char 2 1 ⟨some "héllo", none⟩ "héllo"
    "raw" (Or.inl ⟨rfl, rfl⟩) (by decide) (by decide)

/-- Counterexample for C2 as stated: with stored raw content `"日本"`
(each character three bytes) and the request `start=1,size=3`, both
offsets are inside characters, and the result is a panic, not a cleanly
reported error. -/
theorem get_content_chunk_midchar_counterexample_c2 :
    get_content_chunk "raw" 1 3 ⟨some "日本", none⟩ = .panic := by rfl

/-- C10 (amended): for a JSON string value `s`, `generate_json_summary`
renders one line reporting the **byte** length of `s` (`s.len()`), and a
preview equal to `s` when that byte length is at most 50, and otherwise to
the first 47 **bytes** of `s` followed by `"..."` — provided byte 47 is a
character boundary; when it falls inside a multi-byte character the byte
slice `&s[..47]` panics. -/
theorem generate_json_summary_string_preview (s key : String) (depth : Nat) :
    (byteLen s.data ≤ 50 →
      generate_json_summary (.str s) key depth =
        some (String.mk (indentChars depth) ++ "📝 " ++ key ++ ": String (" ++
          toString (byteLen s.data) ++ " chars) - \"" ++ s ++ "\"\n")) ∧
    (byteLen s.data > 50 → isCharBoundary s.data 47 = true →
      ∃ pre, takeBytes 47 s.data = some pre ∧
        utf8Bytes pre = (utf8Bytes s.data).take 47 ∧
        generate_json_summary (.str s) key depth =
          some (String.mk (indentChars depth) ++ "📝 " ++ key ++
            ": String (" ++ toString (byteLen s.data) ++ " chars) - \"" ++
            (String.mk pre ++ "...") ++ "\"\n")) ∧
    (byteLen s.data > 50 → isCharBoundary s.data 47 = false →
      generate_json_summary (.str s) key depth = none) := by
  refine ⟨?_, ?_, ?_⟩
  · intro hle
    simp only [generate_json_summary]
    rw [if_neg (by omega)]
    rfl
  · intro hgt hbnd
    have htk : (takeBytes 47 s.data).isSome := by
      rw [← isCharBoundary_eq_takeBytes_isSome]; exact hbnd
    rcases Option.isSome_iff_exists.mp htk with ⟨pre, hpre⟩
    refine ⟨pre, hpre, takeBytes_utf8Bytes _ _ _ hpre, ?_⟩
    simp only [generate_json_summary]
    rw [if_pos (by omega), hpre]
    rfl
  · intro hgt hbnd
    have htk : takeBytes 47 s.data = none := by
      rcases h : takeBytes 47 s.data with _ | m
      · rfl
      · rw [isCharBoundary_eq_takeBytes_isSome, h] at hbnd
        simp at hbnd
    simp only [generate_json_summary]
    rw [if_pos (by omega), htk]
    rfl

/-- Witness for C10: a short ASCII string, a 51-byte ASCII string
(truncated to its first 47 bytes plus ellipsis), and a 52-byte string of
two-byte characters whose byte 47 splits a character (panic). -/
theorem generate_json_summary_string_preview_witness :
    generate_json_summary (.str "abc") "k" 0 =
      some ("" ++ "📝 " ++ "k" ++ ": String (" ++ toString 3 ++
        " chars) - \"" ++ "abc" ++ "\"\n") ∧
    (∃ pre, takeBytes 47 (String.mk (List.replicate 51 'a')).data =
        some pre ∧
      utf8Bytes pre =
        (utf8Bytes (String.mk (List.replicate 51 'a')).data).take 47 ∧
      generate_json_summary (.str (String.mk (List.replicate 51 'a'))) "k" 0 =
        some (String.mk (indentChars 0) ++ "📝 " ++ "k" ++ ": String (" ++
          toString (byteLen (String.mk (List.replicate 51 'a')).data) ++
          " chars) - \"" ++ (String.mk pre ++ "...") ++ "\"\n")) ∧
    generate_json_summary (.str (String.mk (List.replicate 26 '¢'))) "k" 0 =
      none := by
  refine ⟨?_, ?_, ?_⟩
  · have h := (generate_json_summary_string_preview "abc" "k" 0).1 (by decide)
    simpa using h
  · exact (generate_json_summary_string_preview
      (String.mk (List.replicate 51 'a')) "k" 0).2.1 (by decide) (by decide)
  · exact (generate_json_summary_string_preview
      (String.mk (List.replicate 26 '¢')) "k" 0).2.2 (by decide) (by decide)

/-- Counterexample for C10 as stated: the single-character string `"é"` is
reported as `String (2 chars)` — its UTF-8 byte length — not as the
1-character length the claim describes. -/
theorem generate_json_summary_char_length_counterexample :
    generate_json_summary (.str "é") "k" 0 ≠
      some ("📝 k: String (1 chars) - \"é\"\n") := by
  have h := (generate_json_summary_string_preview "é" "k" 0).1 (by decide)
  rw [h]
  intro hcontra
  have : ("" ++ "📝 " ++ "k" ++ ": String (" ++ toString (byteLen "é".data) ++
      " chars) - \"" ++ "é" ++ "\"\n") = ("📝 k: String (1 chars) - \"é\"\n" : String) := by
    injection hcontra
  revert this
  decide

/-! ### UTF-8 and base64 round-trip lemmas (toward C4) -/

theorem char_toNat_valid (c : Char) :
    c.toNat < 0xd800 ∨ (0xdfff < c.toNat ∧ c.toNat < 0x110000) := c.valid

theorem utf8DecodeBytes_encodeChar (c : Char) (rest : List Nat) :
    utf8DecodeBytes (utf8EncodeChar c ++ rest) =
      (utf8DecodeBytes rest).map (c :: ·) := by
  have hv := char_toNat_valid c
  by_cases h1 : c.toNat < 0x80
  · have henc : utf8EncodeChar c = [c.toNat] := by
      unfold utf8EncodeChar
      rw [if_pos h1]
    rw [henc]
    show utf8DecodeBytes (c.toNat :: rest) = _
    conv_lhs => rw [utf8DecodeBytes.eq_def]
    simp only []
    rw [if_pos h1, Char.ofNat_toNat]
  · by_cases h2 : c.toNat < 0x800
    · have henc : utf8EncodeChar c =
          [0xC0 + c.toNat / 64, 0x80 + c.toNat % 64] := by
        simp [utf8EncodeChar, h1, h2]
      rw [henc]
      show utf8DecodeBytes
        ((0xC0 + c.toNat / 64) :: (0x80 + c.toNat % 64) :: rest) = _
      conv_lhs => rw [utf8DecodeBytes.eq_def]
      simp only []
      rw [if_neg (by omega), if_neg (by omega), if_pos (by omega)]
      rw [if_pos (by simp only [Bool.and_eq_true, decide_eq_true_eq]; omega)]
      have hval : (0xC0 + c.toNat / 64 - 0xC0) * 64 +
          (0x80 + c.toNat % 64 - 0x80) = c.toNat := by omega
      rw [hval, Char.ofNat_toNat]
    · by_cases h3 : c.toNat < 0x10000
      · have henc : utf8EncodeChar c =
            [0xE0 + c.toNat / 4096, 0x80 + (c.toNat / 64) % 64,
             0x80 + c.toNat % 64] := by
          simp [utf8EncodeChar, h1, h2, h3]
        rw [henc]
        show utf8DecodeBytes ((0xE0 + c.toNat / 4096) ::
          (0x80 + (c.toNat / 64) % 64) :: (0x80 + c.toNat % 64) :: rest) = _
        conv_lhs => rw [utf8DecodeBytes.eq_def]
        simp only []
        rw [if_neg (by omega), if_neg (by omega), if_neg (by omega),
          if_pos (by omega)]
        rw [if_pos (by
          simp only [Bool.and_eq_true, decide_eq_true_eq, Bool.not_eq_true',
            Bool.and_eq_false_iff, decide_eq_false_iff_not]
          omega)]
        have hval : (0xE0 + c.toNat / 4096 - 0xE0) * 4096 +
            (0x80 + (c.toNat / 64) % 64 - 0x80) * 64 +
            (0x80 + c.toNat % 64 - 0x80) = c.toNat := by omega
        rw [hval, Char.ofNat_toNat]
      · have henc : utf8EncodeChar c =
            [0xF0 + c.toNat / 262144, 0x80 + (c.toNat / 4096) % 64,
             0x80 + (c.toNat / 64) % 64, 0x80 + c.toNat % 64] := by
          simp [utf8EncodeChar, h1, h2, h3]
        rw [henc]
        show utf8DecodeBytes ((0xF0 + c.toNat / 262144) ::
          (0x80 + (c.toNat / 4096) % 64) :: (0x80 + (c.toNat / 64) % 64) ::
          (0x80 + c.toNat % 64) :: rest) = _
        conv_lhs => rw [utf8DecodeBytes.eq_def]
        simp only []
        rw [if_neg (by omega), if_neg (by omega), if_neg (by omega),
          if_neg (by omega), if_pos (by omega)]
        rw [if_pos (by
          simp only [Bool.and_eq_true, decide_eq_true_eq, Bool.not_eq_true',
            Bool.and_eq_false_iff, decide_eq_false_iff_not]
          omega)]
        have hval : (0xF0 + c.toNat / 262144 - 0xF0) * 262144 +
            (0x80 + (c.toNat / 4096) % 64 - 0x80) * 4096 +
            (0x80 + (c.toNat / 64) % 64 - 0x80) * 64 +
            (0x80 + c.toNat % 64 - 0x80) = c.toNat := by omega
        rw [hval, Char.ofNat_toNat]

theorem utf8DecodeBytes_utf8Bytes (l : List Char) :
    utf8DecodeBytes (utf8Bytes l) = .ok l := by
  induction l with
  | nil => rfl
  | cons c cs ih =>
    rw [utf8Bytes_cons, utf8DecodeBytes_encodeChar, ih]
    rfl

theorem utf8EncodeChar_lt_256 (c : Char) :
    ∀ b ∈ utf8EncodeChar c, b < 256 := by
  have hv := char_toNat_valid c
  intro b hb
  by_cases h1 : c.toNat < 0x80
  · simp [utf8EncodeChar, h1] at hb
    omega
  · by_cases h2 : c.toNat < 0x800
    · simp [utf8EncodeChar, h1, h2] at hb
      rcases hb with h | h <;> omega
    · by_cases h3 : c.toNat < 0x10000
      · simp [utf8EncodeChar, h1, h2, h3] at hb
        rcases hb with h | h | h <;> omega
      · simp [utf8EncodeChar, h1, h2, h3] at hb
        rcases hb with h | h | h | h <;> omega

theorem utf8Bytes_lt_256 (l : List Char) : ∀ b ∈ utf8Bytes l, b < 256 := by
  induction l with
  | nil => intro b hb; simp [utf8Bytes] at hb
  | cons c cs ih =>
    intro b hb
    rw [utf8Bytes_cons, List.mem_append] at hb
    rcases hb with h | h
    · exact utf8EncodeChar_lt_256 c b h
    · exact ih b h

theorem b64Val_b64Char : ∀ n, n < 64 → b64Val (b64Char n) = some n := by
  decide

theorem b64DecodeBytes_encodeBytes (bs : List Nat)
    (h : ∀ b ∈ bs, b < 256) :
    b64DecodeBytes (b64EncodeBytes bs) = .ok bs := by
  match bs with
  | [] => rfl
  | [a] =>
    have ha : a < 256 := h a (by simp)
    have e1 := b64Val_b64Char (a / 4) (by omega)
    have e2 := b64Val_b64Char (a % 4 * 16) (by omega)
    show b64DecodeBytes [b64Char (a / 4), b64Char (a % 4 * 16), '=', '='] = _
    rw [b64DecodeBytes]
    rw [if_pos rfl, if_pos (by decide), e1, e2]
    show (if a % 4 * 16 % 16 = 0 then
        Except.ok [a / 4 * 4 + a % 4 * 16 / 16]
      else Except.error "Invalid last symbol") = _
    rw [if_pos (by omega)]
    simp only [Except.ok.injEq, List.cons.injEq, and_true]
    omega
  | [a, b] =>
    have ha : a < 256 := h a (by simp)
    have hb : b < 256 := h b (by simp)
    have e1 := b64Val_b64Char (a / 4) (by omega)
    have e2 := b64Val_b64Char (a % 4 * 16 + b / 16) (by omega)
    have e3 := b64Val_b64Char (b % 16 * 4) (by omega)
    have hne : b64Char (b % 16 * 4) ≠ '=' := by
      intro hq
      rw [hq] at e3
      simp [b64Val] at e3
    show b64DecodeBytes [b64Char (a / 4), b64Char (a % 4 * 16 + b / 16),
      b64Char (b % 16 * 4), '='] = _
    rw [b64DecodeBytes]
    rw [if_neg hne, if_pos rfl, if_pos (by decide), e1, e2, e3]
    show (if b % 16 * 4 % 4 = 0 then
        Except.ok [a / 4 * 4 + (a % 4 * 16 + b / 16) / 16,
          (a % 4 * 16 + b / 16) % 16 * 16 + b % 16 * 4 / 4]
      else Except.error "Invalid last symbol") = _
    rw [if_pos (by omega)]
    simp only [Except.ok.injEq, List.cons.injEq, and_true]
    refine ⟨by omega, by omega⟩
  | a :: b :: c :: rest =>
    have ha : a < 256 := h a (by simp)
    have hb : b < 256 := h b (by simp)
    have hc : c < 256 := h c (by simp)
    have hrest : ∀ x ∈ rest, x < 256 := by
      intro x hx
      exact h x (by simp [hx])
    have ih := b64DecodeBytes_encodeBytes rest hrest
    have e1 := b64Val_b64Char (a / 4) (by omega)
    have e2 := b64Val_b64Char (a % 4 * 16 + b / 16) (by omega)
    have e3 := b64Val_b64Char (b % 16 * 4 + c / 64) (by omega)
    have e4 := b64Val_b64Char (c % 64) (by omega)
    have hne1 : b64Char (b % 16 * 4 + c / 64) ≠ '=' := by
      intro hq
      rw [hq] at e3
      simp [b64Val] at e3
    have hne2 : b64Char (c % 64) ≠ '=' := by
      intro hq
      rw [hq] at e4
      simp [b64Val] at e4
    show b64DecodeBytes (b64Char (a / 4) :: b64Char (a % 4 * 16 + b / 16) ::
      b64Char (b % 16 * 4 + c / 64) :: b64Char (c % 64) ::
      b64EncodeBytes rest) = _
    rw [b64DecodeBytes]
    rw [if_neg hne1, if_neg hne2, e1, e2, e3, e4]
    show (b64DecodeBytes (b64EncodeBytes rest)).map
        (fun bs => (a / 4 * 4 + (a % 4 * 16 + b / 16) / 16) ::
          ((a % 4 * 16 + b / 16) % 16 * 16 + (b % 16 * 4 + c / 64) / 4) ::
          ((b % 16 * 4 + c / 64) % 4 * 64 + c % 64) :: bs) = _
    rw [ih]
    simp only [Except.map, Except.ok.injEq, List.cons.injEq]
    exact ⟨by omega, by omega, by omega, trivial⟩

theorem b64EncodeBytes_not_ws (bs : List Nat) (h : ∀ b ∈ bs, b < 256) :
    ∀ ch ∈ b64EncodeBytes bs, isRustWs ch = false := by
  have hchar : ∀ n, n < 64 → isRustWs (b64Char n) = false := by decide
  have heq : isRustWs '=' = false := by decide
  match bs with
  | [] => intro ch hch; simp [b64EncodeBytes] at hch
  | [a] =>
    have ha : a < 256 := h a (by simp)
    intro ch hch
    have hch2 : ch ∈ [b64Char (a / 4), b64Char (a % 4 * 16), '=', '='] := hch
    simp only [List.mem_cons, List.not_mem_nil, or_false] at hch2
    rcases hch2 with rfl | rfl | rfl | rfl
    · exact hchar _ (by omega)
    · exact hchar _ (by omega)
    · exact heq
    · exact heq
  | [a, b] =>
    have ha : a < 256 := h a (by simp)
    have hb : b < 256 := h b (by simp)
    intro ch hch
    have hch2 : ch ∈ [b64Char (a / 4), b64Char (a % 4 * 16 + b / 16),
      b64Char (b % 16 * 4), '='] := hch
    simp only [List.mem_cons, List.not_mem_nil, or_false] at hch2
    rcases hch2 with rfl | rfl | rfl | rfl
    · exact hchar _ (by omega)
    · exact hchar _ (by omega)
    · exact hchar _ (by omega)
    · exact heq
  | a :: b :: c :: rest =>
    have ha : a < 256 := h a (by simp)
    have hb : b < 256 := h b (by simp)
    have hc : c < 256 := h c (by simp)
    have hrest : ∀ x ∈ rest, x < 256 := fun x hx => h x (by simp [hx])
    have ih := b64EncodeBytes_not_ws rest hrest
    intro ch hch
    have hch2 : ch ∈ b64Char (a / 4) :: b64Char (a % 4 * 16 + b / 16) ::
      b64Char (b % 16 * 4 + c / 64) :: b64Char (c % 64) ::
      b64EncodeBytes rest := hch
    simp only [List.mem_cons] at hch2
    rcases hch2 with rfl | rfl | rfl | rfl | hmem
    · exact hchar _ (by omega)
    · exact hchar _ (by omega)
    · exact hchar _ (by omega)
    · exact hchar _ (by omega)
    · exact ih ch hmem

theorem rustTrim_of_no_ws (l : List Char)
    (h : ∀ c ∈ l, isRustWs c = false) : rustTrim l = l := by
  have hdrop : ∀ (m : List Char), (∀ c ∈ m, isRustWs c = false) →
      dropWsLeft m = m := by
    intro m hm
    cases m with
    | nil => rfl
    | cons c cs =>
      unfold dropWsLeft
      rw [List.dropWhile_cons_of_neg]
      rw [hm c (by simp)]
      simp
  unfold rustTrim
  rw [hdrop l.reverse (fun c hc => h c (List.mem_reverse.mp hc)),
    List.reverse_reverse, hdrop l h]

/-- C4: `decode_base64 (encode_base64 s) = Ok s` for every string `s`, and
the empty string round-trips as `Ok("")` (not an error) on both legs. -/
theorem encode_decode_base64_round_trip :
    (∀ s : String, ∃ enc, encode_base64 s = .ok enc ∧
      decode_base64 enc = .ok s) ∧
    encode_base64 "" = .ok "" ∧ decode_base64 "" = .ok "" := by
  refine ⟨?_, rfl, rfl⟩
  intro s
  rcases hdata : s.data with _ | ⟨c, cs⟩
  · refine ⟨"", ?_, ?_⟩
    · simp [encode_base64, hdata]
    · have : s = "" := by
        cases s
        simp at hdata
        simp [hdata]
      rw [this]
      rfl
  · have hne : ¬s.data.isEmpty := by simp [hdata]
    refine ⟨⟨b64EncodeBytes (utf8Bytes s.data)⟩, ?_, ?_⟩
    · simp [encode_base64, hne]
    · have hlt := utf8Bytes_lt_256 s.data
      have htrim : rustTrim (String.mk (b64EncodeBytes (utf8Bytes s.data))).data =
          b64EncodeBytes (utf8Bytes s.data) := by
        exact rustTrim_of_no_ws _ (b64EncodeBytes_not_ws _ hlt)
      have hencne : b64EncodeBytes (utf8Bytes s.data) ≠ [] := by
        rw [hdata, utf8Bytes_cons]
        rcases henc : utf8EncodeChar c with _ | ⟨b, bs⟩
        · exfalso
          have hl := utf8EncodeChar_length c
          rw [henc] at hl
          have hp := utf8Len_pos c
          simp only [List.length_nil] at hl
          omega
        · rw [List.cons_append]
          cases hz : bs ++ utf8Bytes cs with
          | nil => simp [b64EncodeBytes]
          | cons y ys =>
            cases ys with
            | nil => simp [b64EncodeBytes]
            | cons z zs => simp [b64EncodeBytes]
      unfold decode_base64
      rw [htrim]
      rw [if_neg (by simpa using hencne)]
      simp only [b64DecodeBytes_encodeBytes _ hlt, utf8DecodeBytes_utf8Bytes]

/-! ### JSON print/parse round trip (toward C9) -/

theorem skipWs_cons_ws (c : Char) (l : List Char) (h : isJsonWs c = true) :
    skipWs (c :: l) = skipWs l := by
  simp [skipWs, List.dropWhile_cons_of_pos, h]

theorem skipWs_cons_neg (c : Char) (l : List Char) (h : isJsonWs c = false) :
    skipWs (c :: l) = c :: l := by
  simp [skipWs, List.dropWhile_cons_of_neg, h]

theorem skipWs_replicate_space (n : Nat) (l : List Char) :
    skipWs (List.replicate n ' ' ++ l) = skipWs l := by
  induction n with
  | zero => rfl
  | succ m ih =>
    rw [List.replicate_succ, List.cons_append, skipWs_cons_ws _ _ (by decide)]
    exact ih

theorem skipWs_indent (d : Nat) (l : List Char) :
    skipWs (indentChars d ++ l) = skipWs l :=
  skipWs_replicate_space _ _

theorem skipWs_nl_indent (d : Nat) (l : List Char) :
    skipWs ('\n' :: (indentChars d ++ l)) = skipWs l := by
  rw [skipWs_cons_ws _ _ (by decide), skipWs_indent]

theorem skipWs_idem (l : List Char) : skipWs (skipWs l) = skipWs l := by
  induction l with
  | nil => rfl
  | cons c cs ih =>
    rcases h : isJsonWs c with hf | ht
    · rw [skipWs_cons_neg _ _ h, skipWs_cons_neg _ _ h]
    · rw [skipWs_cons_ws _ _ h]
      exact ih

theorem parseValue_succ (f : Nat) (l : List Char) :
    parseValue (f + 1) l = parseValueCore f (skipWs l) := rfl

theorem parseValueCore_cons (f : Nat) (c : Char) (r : List Char) :
    parseValueCore f (c :: r) =
      (if c = 'n' then expectTail ['u', 'l', 'l'] .null r
       else if c = 't' then expectTail ['r', 'u', 'e'] (.bool true) r
       else if c = 'f' then expectTail ['a', 'l', 's', 'e'] (.bool false) r
       else if c = '"' then
         (parseStringBody r).map fun p => (.str ⟨p.1⟩, p.2)
       else if c = '-' || isDigit c then
         (parseNumCore (c :: r)).map fun p => (.num p.1, p.2)
       else if c = '[' then
         let r1 := skipWs r
         if r1.head? = some ']' then .ok (.arr [], r1.tail)
         else
           match f with
           | 0 => .error ⟨"recursion limit exceeded", r1⟩
           | g + 1 =>
             (parseElems g r1).map fun p => (.arr p.1, p.2)
       else if c = '{' then
         let r1 := skipWs r
         if r1.head? = some '}' then .ok (.obj [], r1.tail)
         else
           match f with
           | 0 => .error ⟨"recursion limit exceeded", r1⟩
           | g + 1 =>
             (parseMembers g r1).map fun p => (.obj (buildObj p.1), p.2)
       else .error ⟨"expected value", r⟩) := by
  cases f with
  | zero => rfl
  | succ g => rfl

theorem parseElems_succ (f : Nat) (l : List Char) :
    parseElems (f + 1) l =
      (match parseValue f l with
       | .error e => .error e
       | .ok (v, r) =>
         match skipWs r with
         | [] => .error ⟨"EOF while parsing a list", []⟩
         | c :: r2 =>
           if c = ',' then
             (parseElems f r2).map fun p => (v :: p.1, p.2)
           else if c = ']' then .ok ([v], r2)
           else .error ⟨"expected comma or bracket", r2⟩) := rfl

theorem parseMembers_succ (f : Nat) (l : List Char) :
    parseMembers (f + 1) l =
      (match skipWs l with
       | [] => .error ⟨"EOF while parsing an object", []⟩
       | cq :: lr =>
         if cq = '"' then
           match parseStringBody lr with
           | .error e => .error e
           | .ok (k, r) =>
             match skipWs r with
             | [] => .error ⟨"EOF while parsing an object", []⟩
             | cc :: r2 =>
               if cc = ':' then
                 match parseValue f r2 with
                 | .error e => .error e
                 | .ok (v, r3) =>
                   match skipWs r3 with
                   | [] => .error ⟨"EOF while parsing an object", []⟩
                   | cs :: r4 =>
                     if cs = ',' then
                       (parseMembers f r4).map fun p => ((⟨k⟩, v) :: p.1, p.2)
                     else if cs = '}' then .ok ([(⟨k⟩, v)], r4)
                     else .error ⟨"expected comma or brace", r4⟩
               else .error ⟨"expected colon", r2⟩
         else .error ⟨"key must be a string", lr⟩) := rfl

theorem parseValue_skipWs_congr (f : Nat) (l l' : List Char)
    (h : skipWs l = skipWs l') :
    parseValue (f + 1) l = parseValue (f + 1) l' := by
  rw [parseValue_succ, parseValue_succ, h]

theorem parseElems_skipWs_congr (f : Nat) (l l' : List Char)
    (h : skipWs l = skipWs l') :
    parseElems (f + 2) l = parseElems (f + 2) l' := by
  rw [parseElems_succ, parseElems_succ,
    parseValue_skipWs_congr f l l' h]

theorem parseMembers_skipWs_congr (f : Nat) (l l' : List Char)
    (h : skipWs l = skipWs l') :
    parseMembers (f + 1) l = parseMembers (f + 1) l' := by
  rw [parseMembers_succ, parseMembers_succ, h]

theorem isPrefixOf_append_self (kw rest : List Char) :
    kw.isPrefixOf (kw ++ rest) = true := by
  induction kw with
  | nil => simp [List.isPrefixOf]
  | cons c cs ih => simp [List.isPrefixOf, ih]

theorem expectTail_exact (kw : List Char) (v : JsonValue) (rest : List Char) :
    expectTail kw v (kw ++ rest) = .ok (v, rest) := by
  unfold expectTail
  rw [if_pos (isPrefixOf_append_self kw rest)]
  rw [List.drop_left]

theorem hexVal_hexDigit : ∀ n, n < 16 → hexVal? (hexDigit n) = some n := by
  decide

theorem parseStringBody_roundtrip (s rest : List Char) :
    parseStringBody (s.flatMap escChar ++ '"' :: rest) = .ok (s, rest) := by
  induction s with
  | nil =>
    show parseStringBody ('"' :: rest) = .ok ([], rest)
    rw [parseStringBody.eq_def]
    simp only [Char.reduceEq, if_true]
  | cons c cs ih =>
    have hbody : (c :: cs).flatMap escChar ++ '"' :: rest =
        escChar c ++ (cs.flatMap escChar ++ '"' :: rest) := by
      simp [List.flatMap_cons, List.append_assoc]
    rw [hbody]
    by_cases h1 : c = '"'
    · subst h1
      rw [show escChar '"' = ['\\', '"'] from by decide]
      simp only [List.cons_append, List.nil_append]
      rw [parseStringBody.eq_def]
      simp only [Char.reduceEq, if_true, if_false]
      rw [show simpleEscape? '"' = some '"' from by decide]
      rw [ih]
      rfl
    · by_cases h2 : c = '\\'
      · subst h2
        rw [show escChar '\\' = ['\\', '\\'] from by decide]
        simp only [List.cons_append, List.nil_append]
        rw [parseStringBody.eq_def]
        simp only [Char.reduceEq, if_true, if_false]
        rw [show simpleEscape? '\\' = some '\\' from by decide]
        rw [ih]
        rfl
      · by_cases h3 : c = '\x08'
        · subst h3
          rw [show escChar '\x08' = ['\\', 'b'] from by decide]
          simp only [List.cons_append, List.nil_append]
          rw [parseStringBody.eq_def]
          simp only [Char.reduceEq, if_true, if_false]
          rw [show simpleEscape? 'b' = some '\x08' from by decide]
          rw [ih]
          rfl
        · by_cases h4 : c = '\t'
          · subst h4
            rw [show escChar '\t' = ['\\', 't'] from by decide]
            simp only [List.cons_append, List.nil_append]
            rw [parseStringBody.eq_def]
            simp only [Char.reduceEq, if_true, if_false]
            rw [show simpleEscape? 't' = some '\t' from by decide]
            rw [ih]
            rfl
          · by_cases h5 : c = '\n'
            · subst h5
              rw [show escChar '\n' = ['\\', 'n'] from by decide]
              simp only [List.cons_append, List.nil_append]
              rw [parseStringBody.eq_def]
              simp only [Char.reduceEq, if_true, if_false]
              rw [show simpleEscape? 'n' = some '\n' from by decide]
              rw [ih]
              rfl
            · by_cases h6 : c = '\x0c'
              · subst h6
                rw [show escChar '\x0c' = ['\\', 'f'] from by decide]
                simp only [List.cons_append, List.nil_append]
                rw [parseStringBody.eq_def]
                simp only [Char.reduceEq, if_true, if_false]
                rw [show simpleEscape? 'f' = some '\x0c' from by decide]
                rw [ih]
                rfl
              · by_cases h7 : c = '\r'
                · subst h7
                  rw [show escChar '\r' = ['\\', 'r'] from by decide]
                  simp only [List.cons_append, List.nil_append]
                  rw [parseStringBody.eq_def]
                  simp only [Char.reduceEq, if_true, if_false]
                  rw [show simpleEscape? 'r' = some '\r' from by decide]
                  rw [ih]
                  rfl
                · by_cases h8 : c.toNat < 0x20
                  · have he : escChar c = ['\\', 'u', '0', '0',
                        hexDigit (c.toNat / 16), hexDigit (c.toNat % 16)] := by
                      unfold escChar
                      rw [if_neg h1, if_neg h2, if_neg h3, if_neg h4,
                        if_neg h5, if_neg h6, if_neg h7, if_pos h8]
                    rw [he]
                    simp only [List.cons_append, List.nil_append]
                    rw [parseStringBody.eq_def]
                    simp only [Char.reduceEq, if_true, if_false]
                    rw [show hexVal? '0' = some 0 from by decide]
                    rw [hexVal_hexDigit (c.toNat / 16) (by omega)]
                    rw [hexVal_hexDigit (c.toNat % 16) (by omega)]
                    simp only []
                    rw [if_neg (by
                      simp only [Bool.and_eq_true, decide_eq_true_eq, not_and]
                      omega)]
                    have hv : 0 * 4096 + 0 * 256 + c.toNat / 16 * 16 +
                        c.toNat % 16 = c.toNat := by omega
                    rw [hv, Char.ofNat_toNat, ih]
                    rfl
                  · have he : escChar c = [c] := by
                      unfold escChar
                      rw [if_neg h1, if_neg h2, if_neg h3, if_neg h4,
                        if_neg h5, if_neg h6, if_neg h7, if_neg h8]
                    rw [he]
                    show parseStringBody
                      (c :: (cs.flatMap escChar ++ '"' :: rest)) = _
                    rw [parseStringBody.eq_def]
                    simp only []
                    rw [if_neg h1, if_neg h2, if_neg h8, ih]
                    rfl

theorem isDigit_digitChar : ∀ n, n < 10 → isDigit (digitChar n) = true := by
  decide

theorem digitVal_digitChar : ∀ n, n < 10 → digitVal (digitChar n) = n := by
  decide

theorem digitChar_ne_zero : ∀ n, n < 10 → 1 ≤ n → digitChar n ≠ '0' := by
  decide

theorem isDigit_toNat_bounds (c : Char) (hd : isDigit c = true) :
    48 ≤ c.toNat ∧ c.toNat ≤ 57 := by
  unfold isDigit at hd
  simp only [Bool.and_eq_true, decide_eq_true_eq] at hd
  obtain ⟨h1, h2⟩ := hd
  rw [Char.le_def] at h1 h2
  exact ⟨h1, h2⟩

theorem isDigit_ne (c : Char) (hd : isDigit c = true) :
    c ≠ 'n' ∧ c ≠ 't' ∧ c ≠ 'f' ∧ c ≠ '"' ∧ c ≠ '-' ∧ c ≠ '[' ∧ c ≠ '{' ∧
    isJsonWs c = false ∧ c ≠ ']' ∧ c ≠ '}' ∧ c ≠ ',' := by
  have hb := isDigit_toNat_bounds c hd
  have hne : ∀ x : Char, x.toNat < 48 ∨ 57 < x.toNat → c ≠ x := by
    intro x hx hq
    rw [hq] at hb
    omega
  refine ⟨hne 'n' (by decide), hne 't' (by decide), hne 'f' (by decide),
    hne '"' (by decide), hne '-' (by decide), hne '[' (by decide),
    hne '{' (by decide), ?_, hne ']' (by decide), hne '}' (by decide),
    hne ',' (by decide)⟩
  unfold isJsonWs
  simp only [Bool.or_eq_false_iff, decide_eq_false_iff_not]
  exact ⟨⟨⟨hne ' ' (by decide), hne '\t' (by decide)⟩,
    hne '\n' (by decide)⟩, hne '\r' (by decide)⟩

theorem printNatChars_spec (n : Nat) :
    (∀ d ∈ printNatChars n, isDigit d = true) ∧
    (∃ c t, printNatChars n = c :: t ∧ isDigit c = true ∧
      (1 ≤ n → c ≠ '0')) := by
  induction n using Nat.strong_induction_on with
  | _ n ih =>
    by_cases h : n < 10
    · rw [printNatChars, if_pos h]
      refine ⟨?_, digitChar n, [], rfl, isDigit_digitChar n h, ?_⟩
      · intro d hd
        simp only [List.mem_singleton] at hd
        subst hd
        exact isDigit_digitChar n h
      · intro h1
        exact digitChar_ne_zero n h h1
    · rw [printNatChars, if_neg h]
      obtain ⟨hdigits, c, t, hct, hcd, hc0⟩ := ih (n / 10) (by omega)
      constructor
      · intro d hd
        rw [List.mem_append] at hd
        rcases hd with hd | hd
        · exact hdigits d hd
        · simp only [List.mem_singleton] at hd
          subst hd
          exact isDigit_digitChar _ (by omega)
      · exact ⟨c, t ++ [digitChar (n % 10)], by rw [hct, List.cons_append],
          hcd, fun _ => hc0 (by omega)⟩

theorem digitsVal_printNatChars (n : Nat) :
    digitsVal 0 (printNatChars n) = n := by
  induction n using Nat.strong_induction_on with
  | _ n ih =>
    by_cases h : n < 10
    · rw [printNatChars, if_pos h]
      show 0 * 10 + digitVal (digitChar n) = n
      rw [digitVal_digitChar n h]
      omega
    · rw [printNatChars, if_neg h]
      have hfold : digitsVal 0 (printNatChars (n / 10) ++ [digitChar (n % 10)]) =
          digitsVal (digitsVal 0 (printNatChars (n / 10))) [digitChar (n % 10)] := by
        simp [digitsVal, List.foldl_append]
      rw [hfold, ih (n / 10) (by omega)]
      show n / 10 * 10 + digitVal (digitChar (n % 10)) = n
      rw [digitVal_digitChar _ (by omega)]
      omega

theorem digitsRun_append (ds rest : List Char)
    (hds : ∀ d ∈ ds, isDigit d = true)
    (hrest : ∀ c t, rest = c :: t → isDigit c = false) :
    digitsRun (ds ++ rest) = (ds, rest) := by
  induction ds with
  | nil =>
    cases rest with
    | nil => rfl
    | cons c t =>
      show digitsRun (c :: t) = ([], c :: t)
      rw [digitsRun]
      rw [if_neg (by rw [hrest c t rfl]; simp)]
  | cons d ds ih =>
    show digitsRun (d :: (ds ++ rest)) = (d :: ds, rest)
    rw [digitsRun]
    rw [if_pos (hds d (by simp))]
    rw [ih (fun x hx => hds x (by simp [hx]))]

theorem parseNatCore_roundtrip (n : Nat) (rest : List Char)
    (hrest : ∀ c t, rest = c :: t → isDigit c = false) :
    parseNatCore (printNatChars n ++ rest) = .ok (n, rest) := by
  rcases Nat.eq_zero_or_pos n with hz | hpos
  · subst hz
    have h0 : printNatChars 0 = ['0'] := by
      rw [printNatChars, if_pos (by omega)]
      rfl
    rw [h0]
    show parseNatCore ('0' :: rest) = .ok (0, rest)
    rw [parseNatCore.eq_def]
    simp only []
    rw [if_pos (by decide)]
    simp only [if_true]
    cases rest with
    | nil => rfl
    | cons c t =>
      simp only []
      rw [if_neg (by rw [hrest c t rfl]; simp)]
  · obtain ⟨hdigits, c, t, hct, hcd, hc0⟩ := printNatChars_spec n
    rw [hct, List.cons_append]
    rw [parseNatCore.eq_def]
    simp only []
    rw [if_pos hcd, if_neg (hc0 hpos)]
    rw [digitsRun_append t rest
      (fun x hx => hdigits x (by rw [hct]; simp [hx])) hrest]
    have hval : digitsVal (digitVal c) t = n := by
      have : digitsVal 0 (c :: t) = digitsVal (digitVal c) t := by
        simp [digitsVal]
      rw [← this, ← hct, digitsVal_printNatChars]
    rw [hval]

/-- The remaining input does not continue a number literal: its head (when
it exists) is neither a digit nor a fraction/exponent marker. -/
def notNumCont (rest : List Char) : Prop :=
  ∀ c t, rest = c :: t →
    isDigit c = false ∧ c ≠ '.' ∧ c ≠ 'e' ∧ c ≠ 'E'

theorem numTail_false (rest : List Char) (h : notNumCont rest) :
    numTail rest = false := by
  cases rest with
  | nil => rfl
  | cons c t =>
    obtain ⟨_, h1, h2, h3⟩ := h c t rfl
    simp [numTail, h1, h2, h3]

theorem parseNumCore_roundtrip (n : Int) (rest : List Char)
    (h : notNumCont rest) :
    parseNumCore (printIntChars n ++ rest) = .ok (n, rest) := by
  have hrest : ∀ c t, rest = c :: t → isDigit c = false :=
    fun c t hq => (h c t hq).1
  unfold printIntChars
  by_cases hn : n < 0
  · rw [if_pos hn, List.cons_append]
    rw [parseNumCore]
    rw [if_pos rfl]
    rw [parseNatCore_roundtrip n.natAbs rest hrest]
    simp only []
    rw [numTail_false rest h]
    simp only [Bool.false_eq_true, if_false]
    have : -(n.natAbs : Int) = n := by omega
    rw [this]
  · rw [if_neg hn]
    obtain ⟨hdigits, c, t, hct, hcd, _⟩ := printNatChars_spec n.natAbs
    rw [hct, List.cons_append]
    rw [parseNumCore]
    rw [if_neg (isDigit_ne c hcd).2.2.2.2.1]
    rw [← List.cons_append, ← hct]
    rw [parseNatCore_roundtrip n.natAbs rest hrest]
    simp only []
    rw [numTail_false rest h]
    simp only [Bool.false_eq_true, if_false]
    have : (n.natAbs : Int) = n := by omega
    rw [this]

mutual

/-- Fuel sufficient for `parseValue` to parse the printed form of a
value. -/
def fnV : JsonValue → Nat
  | .null => 1
  | .bool _ => 1
  | .num _ => 1
  | .str _ => 1
  | .arr [] => 1
  | .arr (x :: xs) => 2 + fnE x xs
  | .obj [] => 1
  | .obj (m :: ms) => 2 + fnM m ms
termination_by v => sizeOf v
decreasing_by all_goals (simp_wf; try omega)

/-- Fuel sufficient for `parseElems` on a printed non-empty element
list. -/
def fnE : JsonValue → List JsonValue → Nat
  | x, [] => 1 + fnV x
  | x, y :: ys => 1 + max (fnV x) (fnE y ys)
termination_by x xs => 1 + sizeOf x + sizeOf xs
decreasing_by all_goals (simp_wf; try omega)

/-- Fuel sufficient for `parseMembers` on a printed non-empty member
list. -/
def fnM : (String × JsonValue) → List (String × JsonValue) → Nat
  | (_, v), [] => 1 + fnV v
  | (_, v), m' :: ms => 1 + max (fnV v) (fnM m' ms)
termination_by m ms => 1 + sizeOf m + sizeOf ms
decreasing_by all_goals (simp_wf; try omega)

end

theorem fnV_pos (v : JsonValue) : 1 ≤ fnV v := by
  cases v with
  | arr xs => cases xs <;> simp [fnV] <;> omega
  | obj ms => cases ms <;> simp [fnV] <;> omega
  | _ => simp [fnV]

theorem printVal_head (d : Nat) (v : JsonValue) :
    ∃ c t, printVal d v = c :: t ∧ isJsonWs c = false ∧ c ≠ ']' ∧ c ≠ '}' := by
  cases v with
  | null => exact ⟨'n', ['u', 'l', 'l'], by simp [printVal], by decide,
      by decide, by decide⟩
  | bool b =>
    cases b with
    | true => exact ⟨'t', ['r', 'u', 'e'], by simp [printVal], by decide,
        by decide, by decide⟩
    | false => exact ⟨'f', ['a', 'l', 's', 'e'], by simp [printVal],
        by decide, by decide, by decide⟩
  | num n =>
    have hp : printVal d (.num n) = printIntChars n := by simp [printVal]
    by_cases hn : n < 0
    · refine ⟨'-', printNatChars n.natAbs, ?_, by decide, by decide, by decide⟩
      rw [hp]
      unfold printIntChars
      rw [if_pos hn]
    · obtain ⟨_, c, t, hct, hcd, _⟩ := printNatChars_spec n.natAbs
      obtain ⟨_, _, _, _, _, _, _, hws, hrb, hcb, _⟩ := isDigit_ne c hcd
      refine ⟨c, t, ?_, hws, hrb, hcb⟩
      rw [hp]
      unfold printIntChars
      rw [if_neg hn]
      exact hct
  | str s =>
    exact ⟨'"', s.data.flatMap escChar ++ ['"'],
      by simp [printVal, printStringChars], by decide, by decide, by decide⟩
  | arr xs =>
    cases xs with
    | nil => exact ⟨'[', [']'], by simp [printVal], by decide, by decide,
        by decide⟩
    | cons x t => exact ⟨'[', printElems (d + 1) x t ++ '\n' ::
        indentChars d ++ [']'], by simp [printVal], by decide, by decide,
        by decide⟩
  | obj ms =>
    cases ms with
    | nil => exact ⟨'{', ['}'], by simp [printVal], by decide, by decide,
        by decide⟩
    | cons m t => exact ⟨'{', printMembers (d + 1) m t ++ '\n' ::
        indentChars d ++ ['}'], by simp [printVal], by decide, by decide,
        by decide⟩

theorem insertKV_of_not_mem (m : List (String × JsonValue)) (k : String)
    (v : JsonValue) (h : (m.map Prod.fst).contains k = false) :
    insertKV m k v = m ++ [(k, v)] := by
  induction m with
  | nil => rfl
  | cons p rest ih =>
    simp only [List.map_cons, List.contains_cons, Bool.or_eq_false_iff,
      beq_eq_false_iff_ne, ne_eq] at h
    show insertKV (p :: rest) k v = _
    rw [insertKV]
    rw [if_neg (by intro hq; exact h.1 hq.symm)]
    rw [ih h.2]
    rfl

theorem containsAppend (l1 l2 : List String) (a : String) :
    (l1 ++ l2).contains a = (l1.contains a || l2.contains a) := by
  show (l1 ++ l2).elem a = (l1.elem a || l2.elem a)
  simp only [List.elem_eq_mem, List.mem_append]
  by_cases h1 : a ∈ l1 <;> by_cases h2 : a ∈ l2 <;> simp [h1, h2]

theorem contains_false_not_mem (l : List String) (a : String)
    (h : l.contains a = false) : a ∉ l := by
  intro hm
  have h2 : l.elem a = false := h
  rw [List.elem_eq_mem] at h2
  simp [hm] at h2

theorem buildObj_foldl (ms : List (String × JsonValue)) :
    ∀ acc : List (String × JsonValue),
      (∀ k ∈ ms.map Prod.fst, (acc.map Prod.fst).contains k = false) →
      keysNodup ms = true →
      List.foldl (fun m kv => insertKV m kv.1 kv.2) acc ms = acc ++ ms := by
  induction ms with
  | nil => intro acc _ _; simp
  | cons p rest ih =>
    intro acc hacc hnd
    simp only [keysNodup, Bool.and_eq_true, Bool.not_eq_true'] at hnd
    obtain ⟨hnotin, hndrest⟩ := hnd
    show List.foldl _ (insertKV acc p.1 p.2) rest = _
    rw [insertKV_of_not_mem acc p.1 p.2 (hacc p.1 (by simp))]
    rw [ih (acc ++ [p]) ?_ hndrest]
    · simp
    · intro k hk
      simp only [List.map_append, List.map_cons, List.map_nil]
      rw [containsAppend]
      simp only [Bool.or_eq_false_iff]
      constructor
      · exact hacc k (by simp [hk])
      · simp only [List.contains_cons, List.not_mem_nil, List.contains_nil,
          Bool.or_false, beq_eq_false_iff_ne, ne_eq]
        intro hq
        rw [hq] at hk
        exact contains_false_not_mem _ _ hnotin hk

theorem buildObj_self (ms : List (String × JsonValue))
    (h : keysNodup ms = true) : buildObj ms = ms := by
  unfold buildObj
  rw [buildObj_foldl ms [] (by simp) h]
  rfl

theorem keys_insertKV (m : List (String × JsonValue)) (k : String)
    (v : JsonValue) :
    (insertKV m k v).map Prod.fst =
      if (m.map Prod.fst).contains k then m.map Prod.fst
      else m.map Prod.fst ++ [k] := by
  induction m with
  | nil => simp [insertKV]
  | cons p rest ih =>
    rw [insertKV]
    by_cases hq : p.1 = k
    · rw [if_pos hq]
      simp only [List.map_cons, List.contains_cons]
      rw [if_pos (by simp [hq])]
    · rw [if_neg hq]
      simp only [List.map_cons, List.contains_cons]
      by_cases hc : (rest.map Prod.fst).contains k
      · rw [ih]
        rw [if_pos hc, if_pos (by rw [Bool.or_eq_true]; exact Or.inr hc)]
      · rw [ih]
        rw [if_neg hc, if_neg (by
          simp only [Bool.or_eq_true, beq_iff_eq]
          push_neg
          exact ⟨fun h => hq h.symm, hc⟩)]
        simp

theorem keysNodup_insertKV (m : List (String × JsonValue)) (k : String)
    (v : JsonValue) (h : keysNodup m = true) :
    keysNodup (insertKV m k v) = true := by
  induction m with
  | nil => simp [insertKV, keysNodup]
  | cons p rest ih =>
    simp only [keysNodup, Bool.and_eq_true, Bool.not_eq_true'] at h
    obtain ⟨hnotin, hnd⟩ := h
    rw [insertKV]
    by_cases hq : p.1 = k
    · rw [if_pos hq]
      simp only [keysNodup, Bool.and_eq_true, Bool.not_eq_true']
      exact ⟨hnotin, hnd⟩
    · rw [if_neg hq]
      simp only [keysNodup, Bool.and_eq_true, Bool.not_eq_true']
      refine ⟨?_, ih hnd⟩
      rw [keys_insertKV]
      by_cases hc : (rest.map Prod.fst).contains k
      · rw [if_pos hc]
        exact hnotin
      · rw [if_neg hc]
        rw [containsAppend]
        simp only [Bool.or_eq_false_iff]
        refine ⟨hnotin, ?_⟩
        simp only [List.contains_cons, List.contains_nil, Bool.or_false,
          beq_eq_false_iff_ne, ne_eq]
        exact hq

theorem keysNodup_buildObj (ms : List (String × JsonValue)) :
    keysNodup (buildObj ms) = true := by
  suffices hgen : ∀ acc, keysNodup acc = true →
      keysNodup (List.foldl (fun m kv => insertKV m kv.1 kv.2) acc ms) = true by
    exact hgen [] rfl
  induction ms with
  | nil => intro acc hacc; simpa using hacc
  | cons p rest ih =>
    intro acc hacc
    exact ih (insertKV acc p.1 p.2) (keysNodup_insertKV acc p.1 p.2 hacc)

theorem mem_insertKV (m : List (String × JsonValue)) (k : String)
    (v : JsonValue) (p : String × JsonValue) (hp : p ∈ insertKV m k v) :
    p ∈ m ∨ p.2 = v := by
  induction m with
  | nil =>
    simp only [insertKV, List.mem_singleton] at hp
    subst hp
    exact Or.inr rfl
  | cons q rest ih =>
    rw [insertKV] at hp
    by_cases hq : q.1 = k
    · rw [if_pos hq] at hp
      rcases List.mem_cons.mp hp with h | h
      · subst h
        exact Or.inr rfl
      · exact Or.inl (List.mem_cons.mpr (Or.inr h))
    · rw [if_neg hq] at hp
      rcases List.mem_cons.mp hp with h | h
      · exact Or.inl (by simp [h])
      · rcases ih h with h2 | h2
        · exact Or.inl (by simp [h2])
        · exact Or.inr h2

theorem wfM_mem (ms : List (String × JsonValue)) :
    wfM ms = true ↔ ∀ p ∈ ms, wfB p.2 = true := by
  induction ms with
  | nil => simp [wfM]
  | cons p rest ih =>
    rw [wfM]
    simp only [Bool.and_eq_true, ih, List.mem_cons]
    constructor
    · rintro ⟨h1, h2⟩ q (rfl | hq)
      · exact h1
      · exact h2 q hq
    · intro h
      exact ⟨h p (Or.inl rfl), fun q hq => h q (Or.inr hq)⟩

theorem wfM_buildObj_gen (ms : List (String × JsonValue)) :
    ∀ acc : List (String × JsonValue), (∀ p ∈ acc, wfB p.2 = true) →
      (∀ p ∈ ms, wfB p.2 = true) →
      ∀ p ∈ List.foldl (fun m kv => insertKV m kv.1 kv.2) acc ms,
        wfB p.2 = true := by
  induction ms with
  | nil =>
    intro acc hacc _ p hp
    exact hacc p (by simpa using hp)
  | cons q rest ih =>
    intro acc hacc hms p hp
    rw [List.foldl_cons] at hp
    refine ih (insertKV acc q.1 q.2) ?_
      (fun r hr => hms r (List.mem_cons.mpr (Or.inr hr))) p hp
    intro r hr
    rcases mem_insertKV acc q.1 q.2 r hr with h2 | h2
    · exact hacc r h2
    · rw [h2]
      exact hms q (List.mem_cons.mpr (Or.inl rfl))

theorem wfM_buildObj (ms : List (String × JsonValue))
    (h : wfM ms = true) : wfM (buildObj ms) = true := by
  rw [wfM_mem] at h ⊢
  exact wfM_buildObj_gen ms [] (by simp) h

theorem notNumCont_cons (c : Char) (t : List Char) (h1 : isDigit c = false)
    (h2 : c ≠ '.') (h3 : c ≠ 'e') (h4 : c ≠ 'E') : notNumCont (c :: t) := by
  intro c' t' hq
  injection hq with hc ht
  subst hc
  exact ⟨h1, h2, h3, h4⟩

theorem notNumCont_nil : notNumCont [] := fun c t hq => nomatch hq

theorem fnE_ge2 (x : JsonValue) (xs : List JsonValue) : 2 ≤ fnE x xs := by
  have hx := fnV_pos x
  cases xs with
  | nil => rw [fnE]; omega
  | cons y ys => rw [fnE]; omega

theorem fnM_pos (m : String × JsonValue) (ms : List (String × JsonValue)) :
    1 ≤ fnM m ms := by
  obtain ⟨k, v⟩ := m
  cases ms with
  | nil => rw [fnM]; omega
  | cons m' ms' => rw [fnM]; omega

theorem skipWs_printVal (d : Nat) (v : JsonValue) (rest : List Char) :
    skipWs (printVal d v ++ rest) = printVal d v ++ rest := by
  obtain ⟨c, t, hct, hws, _, _⟩ := printVal_head d v
  rw [hct, List.cons_append, skipWs_cons_neg _ _ hws]

theorem skipWs_printElems_append (e : Nat) (x : JsonValue)
    (xs : List JsonValue) (z : List Char) :
    ∃ t, skipWs (printElems e x xs ++ z) = printVal e x ++ t := by
  cases xs with
  | nil =>
    refine ⟨z, ?_⟩
    rw [printElems]
    simp only [List.cons_append, List.append_assoc]
    rw [skipWs_nl_indent, skipWs_printVal]
  | cons y ys =>
    refine ⟨',' :: (printElems e y ys ++ z), ?_⟩
    rw [printElems]
    simp only [List.cons_append, List.append_assoc]
    rw [skipWs_nl_indent, skipWs_printVal]

theorem skipWs_printElems_head (e : Nat) (x : JsonValue)
    (xs : List JsonValue) (z : List Char) :
    ∃ c t, skipWs (printElems e x xs ++ z) = c :: t ∧ c ≠ ']' := by
  obtain ⟨tl, htl⟩ := skipWs_printElems_append e x xs z
  obtain ⟨c, ct, hct, _, hcrb, _⟩ := printVal_head e x
  exact ⟨c, ct ++ tl, by rw [htl, hct, List.cons_append], hcrb⟩

theorem skipWs_printMembers_head (e : Nat) (m : String × JsonValue)
    (ms : List (String × JsonValue)) (z : List Char) :
    (skipWs (printMembers e m ms ++ z)).head? = some '"' := by
  obtain ⟨k, v⟩ := m
  cases ms with
  | nil =>
    rw [printMembers]
    simp only [printStringChars, List.cons_append, List.append_assoc,
      List.singleton_append, List.nil_append]
    rw [skipWs_nl_indent, skipWs_cons_neg _ _ (by decide), List.head?_cons]
  | cons m' ms' =>
    rw [printMembers]
    simp only [printStringChars, List.cons_append, List.append_assoc,
      List.singleton_append, List.nil_append]
    rw [skipWs_nl_indent, skipWs_cons_neg _ _ (by decide), List.head?_cons]

theorem parseValueCore_null (f : Nat) (r : List Char) :
    parseValueCore f ('n' :: r) = expectTail ['u', 'l', 'l'] JsonValue.null r := by
  cases f with
  | zero => rfl
  | succ g => rfl

theorem parseValueCore_true (f : Nat) (r : List Char) :
    parseValueCore f ('t' :: r) =
      expectTail ['r', 'u', 'e'] (JsonValue.bool true) r := by
  cases f with
  | zero => rfl
  | succ g => rfl

theorem parseValueCore_fls (f : Nat) (r : List Char) :
    parseValueCore f ('f' :: r) =
      expectTail ['a', 'l', 's', 'e'] (JsonValue.bool false) r := by
  cases f with
  | zero => rfl
  | succ g => rfl

theorem parseValueCore_quote (f : Nat) (r : List Char) :
    parseValueCore f ('"' :: r) =
      (parseStringBody r).map fun p => (JsonValue.str ⟨p.1⟩, p.2) := by
  cases f with
  | zero => rfl
  | succ g => rfl

theorem parseValueCore_num (f : Nat) (c : Char) (r : List Char)
    (h : c = '-' ∨ isDigit c = true) (h1 : c ≠ 'n') (h2 : c ≠ 't')
    (h3 : c ≠ 'f') (h4 : c ≠ '"') :
    parseValueCore f (c :: r) =
      (parseNumCore (c :: r)).map fun p => (JsonValue.num p.1, p.2) := by
  rw [parseValueCore_cons, if_neg h1, if_neg h2, if_neg h3, if_neg h4,
    if_pos (by rcases h with h | h
               · simp [h]
               · simp [h])]

theorem parseValueCore_arr_empty (f : Nat) (r : List Char)
    (h : (skipWs r).head? = some ']') :
    parseValueCore f ('[' :: r) = .ok (JsonValue.arr [], (skipWs r).tail) := by
  rw [parseValueCore_cons, if_neg (by decide), if_neg (by decide),
    if_neg (by decide), if_neg (by decide), if_neg (by decide), if_pos rfl]
  simp only []
  rw [if_pos h]

theorem parseValueCore_obj_empty (f : Nat) (r : List Char)
    (h : (skipWs r).head? = some '}') :
    parseValueCore f ('{' :: r) = .ok (JsonValue.obj [], (skipWs r).tail) := by
  rw [parseValueCore_cons, if_neg (by decide), if_neg (by decide),
    if_neg (by decide), if_neg (by decide), if_neg (by decide),
    if_neg (by decide), if_pos rfl]
  simp only []
  rw [if_pos h]

theorem parseValueCore_lbrack_succ (g : Nat) (r : List Char) :
    parseValueCore (g + 1) ('[' :: r) =
      (if (skipWs r).head? = some ']' then .ok (JsonValue.arr [], (skipWs r).tail)
       else (parseElems g (skipWs r)).map fun p => (JsonValue.arr p.1, p.2)) := rfl

theorem parseValueCore_lbrace_succ (g : Nat) (r : List Char) :
    parseValueCore (g + 1) ('{' :: r) =
      (if (skipWs r).head? = some '}' then .ok (JsonValue.obj [], (skipWs r).tail)
       else (parseMembers g (skipWs r)).map
         fun p => (JsonValue.obj (buildObj p.1), p.2)) := rfl

mutual

/-- Parsing the pretty-printed form of a well-formed value (followed by a
non-number-continuation remainder) returns exactly that value. -/
theorem printVal_roundtrip (v : JsonValue) (d fuel : Nat) (rest : List Char)
    (hwf : wfB v = true) (hfuel : fnV v ≤ fuel) (hrest : notNumCont rest) :
    parseValue fuel (printVal d v ++ rest) = .ok (v, rest) := by
  obtain ⟨f, rfl⟩ : ∃ f, fuel = f + 1 :=
    ⟨fuel - 1, by have := fnV_pos v; omega⟩
  rw [parseValue_succ, skipWs_printVal]
  cases v with
  | null =>
    rw [show printVal d JsonValue.null = ['n', 'u', 'l', 'l'] from
      by simp [printVal]]
    simp only [List.cons_append, List.nil_append]
    rw [parseValueCore_null]
    exact expectTail_exact ['u', 'l', 'l'] JsonValue.null rest
  | bool b =>
    cases b with
    | true =>
      rw [show printVal d (JsonValue.bool true) = ['t', 'r', 'u', 'e'] from
        by simp [printVal]]
      simp only [List.cons_append, List.nil_append]
      rw [parseValueCore_true]
      exact expectTail_exact ['r', 'u', 'e'] (JsonValue.bool true) rest
    | false =>
      rw [show printVal d (JsonValue.bool false) = ['f', 'a', 'l', 's', 'e'] from
        by simp [printVal]]
      simp only [List.cons_append, List.nil_append]
      rw [parseValueCore_fls]
      exact expectTail_exact ['a', 'l', 's', 'e'] (JsonValue.bool false) rest
  | num n =>
    rw [show printVal d (JsonValue.num n) = printIntChars n from
      by simp [printVal]]
    by_cases hn : n < 0
    · have hm : printIntChars n = '-' :: printNatChars n.natAbs := by
        unfold printIntChars
        rw [if_pos hn]
      rw [hm, List.cons_append,
        parseValueCore_num f '-' _ (Or.inl rfl) (by decide) (by decide)
          (by decide) (by decide),
        ← List.cons_append, ← hm, parseNumCore_roundtrip n rest hrest]
      rfl
    · have hm : printIntChars n = printNatChars n.natAbs := by
        unfold printIntChars
        rw [if_neg hn]
      obtain ⟨hdig, c, t, hct, hcd, _⟩ := printNatChars_spec n.natAbs
      obtain ⟨hq1, hq2, hq3, hq4, _, _, _, _, _, _, _⟩ := isDigit_ne c hcd
      rw [hm, hct, List.cons_append,
        parseValueCore_num f c _ (Or.inr hcd) hq1 hq2 hq3 hq4,
        ← List.cons_append, ← hct, ← hm, parseNumCore_roundtrip n rest hrest]
      rfl
  | str s =>
    rw [show printVal d (JsonValue.str s) = printStringChars s.data from
      by simp [printVal]]
    rw [printStringChars]
    simp only [List.cons_append, List.append_assoc, List.singleton_append,
      List.nil_append]
    rw [parseValueCore_quote, parseStringBody_roundtrip s.data rest]
    rfl
  | arr xs =>
    cases xs with
    | nil =>
      rw [show printVal d (JsonValue.arr []) = ['[', ']'] from
        by simp [printVal]]
      simp only [List.cons_append, List.nil_append]
      rw [parseValueCore_arr_empty f (']' :: rest)
        (by rw [skipWs_cons_neg _ _ (by decide), List.head?_cons])]
      rw [skipWs_cons_neg _ _ (by decide)]
      rfl
    | cons x xs =>
      simp only [wfB, wfL, Bool.and_eq_true] at hwf
      obtain ⟨hwx, hwxs⟩ := hwf
      simp only [fnV] at hfuel
      rw [show printVal d (JsonValue.arr (x :: xs)) =
          '[' :: (printElems (d + 1) x xs ++ '\n' :: indentChars d ++ [']'])
        from by simp [printVal]]
      simp only [List.cons_append, List.append_assoc, List.singleton_append,
      List.nil_append]
      obtain ⟨g, rfl⟩ : ∃ g, f = g + 1 :=
        ⟨f - 1, by have := fnE_ge2 x xs; omega⟩
      rw [parseValueCore_lbrack_succ]
      obtain ⟨c, t, hct, hcrb⟩ := skipWs_printElems_head (d + 1) x xs
        ('\n' :: (indentChars d ++ ']' :: rest))
      rw [if_neg (by
        intro hq
        rw [hct, List.head?_cons] at hq
        exact hcrb (Option.some.inj hq))]
      obtain ⟨g2, rfl⟩ : ∃ g2, g = g2 + 2 :=
        ⟨g - 2, by have := fnE_ge2 x xs; omega⟩
      rw [parseElems_skipWs_congr g2 _ _ (skipWs_idem _),
        printElems_roundtrip x xs (d + 1) d (g2 + 2) rest hwx hwxs (by omega)]
      rfl
  | obj ms =>
    cases ms with
    | nil =>
      rw [show printVal d (JsonValue.obj []) = ['{', '}'] from
        by simp [printVal]]
      simp only [List.cons_append, List.nil_append]
      rw [parseValueCore_obj_empty f ('}' :: rest)
        (by rw [skipWs_cons_neg _ _ (by decide), List.head?_cons])]
      rw [skipWs_cons_neg _ _ (by decide)]
      rfl
    | cons m ms' =>
      obtain ⟨k, kv⟩ := m
      simp only [wfB, Bool.and_eq_true] at hwf
      obtain ⟨hnd, hwm⟩ := hwf
      rw [wfM] at hwm
      simp only [Bool.and_eq_true] at hwm
      obtain ⟨hwv, hwms⟩ := hwm
      simp only [fnV] at hfuel
      rw [show printVal d (JsonValue.obj ((k, kv) :: ms')) =
          '{' :: (printMembers (d + 1) (k, kv) ms' ++
            '\n' :: indentChars d ++ ['}'])
        from by simp [printVal]]
      simp only [List.cons_append, List.append_assoc, List.singleton_append,
      List.nil_append]
      obtain ⟨g, rfl⟩ : ∃ g, f = g + 1 :=
        ⟨f - 1, by have := fnM_pos (k, kv) ms'; omega⟩
      rw [parseValueCore_lbrace_succ]
      rw [if_neg (by
        intro hq
        rw [skipWs_printMembers_head] at hq
        exact absurd (Option.some.inj hq) (by decide))]
      obtain ⟨g1, rfl⟩ : ∃ g1, g = g1 + 1 :=
        ⟨g - 1, by have := fnM_pos (k, kv) ms'; omega⟩
      rw [parseMembers_skipWs_congr g1 _ _ (skipWs_idem _),
        printMembers_roundtrip k kv ms' (d + 1) d (g1 + 1) rest hwv hwms
          (by omega)]
      simp only [Except.map]
      rw [buildObj_self _ hnd]
termination_by fuel
decreasing_by all_goals (simp_wf; omega)

/-- Parsing the printed elements of a non-empty array (with the printed
close bracket and a remainder) returns the element list. -/
theorem printElems_roundtrip (x : JsonValue) (xs : List JsonValue)
    (d dd fuel : Nat) (rest : List Char)
    (hwx : wfB x = true) (hwxs : wfL xs = true) (hfuel : fnE x xs ≤ fuel) :
    parseElems fuel
        (printElems d x xs ++ ('\n' :: (indentChars dd ++ ']' :: rest))) =
      .ok (x :: xs, rest) := by
  cases xs with
  | nil =>
    rw [fnE] at hfuel
    obtain ⟨f, rfl⟩ : ∃ f, fuel = f + 1 := ⟨fuel - 1, by omega⟩
    rw [parseElems_succ, printElems]
    simp only [List.cons_append, List.append_assoc]
    obtain ⟨f1, rfl⟩ : ∃ f1, f = f1 + 1 :=
      ⟨f - 1, by have := fnV_pos x; omega⟩
    have hpv : parseValue (f1 + 1)
        ('\n' :: (indentChars d ++
          (printVal d x ++ ('\n' :: (indentChars dd ++ ']' :: rest))))) =
        .ok (x, '\n' :: (indentChars dd ++ ']' :: rest)) := by
      rw [parseValue_skipWs_congr f1 _
        (printVal d x ++ ('\n' :: (indentChars dd ++ ']' :: rest)))
        (by rw [skipWs_nl_indent])]
      exact printVal_roundtrip x d (f1 + 1) _ hwx (by omega)
        (notNumCont_cons '\n' _ (by decide) (by decide) (by decide) (by decide))
    rw [hpv]
    simp only []
    rw [skipWs_nl_indent, skipWs_cons_neg _ _ (by decide)]
    simp only [Char.reduceEq, if_true, if_false]
  | cons y ys =>
    rw [fnE] at hfuel
    obtain ⟨f, rfl⟩ : ∃ f, fuel = f + 1 := ⟨fuel - 1, by omega⟩
    rw [parseElems_succ, printElems]
    simp only [List.cons_append, List.append_assoc]
    obtain ⟨f1, rfl⟩ : ∃ f1, f = f1 + 1 :=
      ⟨f - 1, by have := fnV_pos x; omega⟩
    have hpv : parseValue (f1 + 1)
        ('\n' :: (indentChars d ++
          (printVal d x ++ (',' :: (printElems d y ys ++
            ('\n' :: (indentChars dd ++ ']' :: rest))))))) =
        .ok (x, ',' :: (printElems d y ys ++
          ('\n' :: (indentChars dd ++ ']' :: rest)))) := by
      rw [parseValue_skipWs_congr f1 _
        (printVal d x ++ (',' :: (printElems d y ys ++
          ('\n' :: (indentChars dd ++ ']' :: rest)))))
        (by rw [skipWs_nl_indent])]
      exact printVal_roundtrip x d (f1 + 1) _ hwx (by omega)
        (notNumCont_cons ',' _ (by decide) (by decide) (by decide) (by decide))
    rw [hpv]
    simp only []
    rw [skipWs_cons_neg _ _ (by decide)]
    simp only [Char.reduceEq, if_true, if_false]
    simp only [wfL, Bool.and_eq_true] at hwxs
    rw [printElems_roundtrip y ys d dd (f1 + 1) rest hwxs.1 hwxs.2 (by omega)]
    rfl
termination_by fuel
decreasing_by all_goals (simp_wf; omega)

/-- Parsing the printed members of a non-empty object (with the printed
close brace and a remainder) returns the raw member list in print order. -/
theorem printMembers_roundtrip (k : String) (kv : JsonValue)
    (ms : List (String × JsonValue)) (d dd fuel : Nat) (rest : List Char)
    (hwv : wfB kv = true) (hwms : wfM ms = true)
    (hfuel : fnM (k, kv) ms ≤ fuel) :
    parseMembers fuel
        (printMembers d (k, kv) ms ++ ('\n' :: (indentChars dd ++ '}' :: rest))) =
      .ok ((k, kv) :: ms, rest) := by
  cases ms with
  | nil =>
    rw [fnM] at hfuel
    obtain ⟨f, rfl⟩ : ∃ f, fuel = f + 1 := ⟨fuel - 1, by omega⟩
    rw [parseMembers_succ, printMembers]
    simp only [printStringChars, List.cons_append, List.append_assoc,
      List.singleton_append, List.nil_append]
    rw [skipWs_nl_indent, skipWs_cons_neg _ _ (by decide)]
    simp only [Char.reduceEq, if_true, if_false]
    rw [parseStringBody_roundtrip k.data]
    simp only []
    rw [skipWs_cons_neg _ _ (by decide)]
    simp only [Char.reduceEq, if_true, if_false]
    obtain ⟨f1, rfl⟩ : ∃ f1, f = f1 + 1 :=
      ⟨f - 1, by have := fnV_pos kv; omega⟩
    have hpv : parseValue (f1 + 1)
        (' ' :: (printVal d kv ++ ('\n' :: (indentChars dd ++ '}' :: rest)))) =
        .ok (kv, '\n' :: (indentChars dd ++ '}' :: rest)) := by
      rw [parseValue_skipWs_congr f1 _
        (printVal d kv ++ ('\n' :: (indentChars dd ++ '}' :: rest)))
        (by rw [skipWs_cons_ws _ _ (by decide)])]
      exact printVal_roundtrip kv d (f1 + 1) _ hwv (by omega)
        (notNumCont_cons '\n' _ (by decide) (by decide) (by decide) (by decide))
    rw [hpv]
    simp only []
    rw [skipWs_nl_indent, skipWs_cons_neg _ _ (by decide)]
    simp only [Char.reduceEq, if_true, if_false]
  | cons m' ms' =>
    rw [fnM] at hfuel
    obtain ⟨f, rfl⟩ : ∃ f, fuel = f + 1 := ⟨fuel - 1, by omega⟩
    rw [parseMembers_succ, printMembers]
    simp only [printStringChars, List.cons_append, List.append_assoc,
      List.singleton_append, List.nil_append]
    rw [skipWs_nl_indent, skipWs_cons_neg _ _ (by decide)]
    simp only [Char.reduceEq, if_true, if_false]
    rw [parseStringBody_roundtrip k.data]
    simp only []
    rw [skipWs_cons_neg _ _ (by decide)]
    simp only [Char.reduceEq, if_true, if_false]
    obtain ⟨f1, rfl⟩ : ∃ f1, f = f1 + 1 :=
      ⟨f - 1, by have := fnV_pos kv; omega⟩
    have hpv : parseValue (f1 + 1)
        (' ' :: (printVal d kv ++ (',' :: (printMembers d m' ms' ++
          ('\n' :: (indentChars dd ++ '}' :: rest)))))) =
        .ok (kv, ',' :: (printMembers d m' ms' ++
          ('\n' :: (indentChars dd ++ '}' :: rest)))) := by
      rw [parseValue_skipWs_congr f1 _
        (printVal d kv ++ (',' :: (printMembers d m' ms' ++
          ('\n' :: (indentChars dd ++ '}' :: rest)))))
        (by rw [skipWs_cons_ws _ _ (by decide)])]
      exact printVal_roundtrip kv d (f1 + 1) _ hwv (by omega)
        (notNumCont_cons ',' _ (by decide) (by decide) (by decide) (by decide))
    rw [hpv]
    simp only []
    rw [skipWs_cons_neg _ _ (by decide)]
    simp only [Char.reduceEq, if_true, if_false]
    rw [wfM] at hwms
    simp only [Bool.and_eq_true] at hwms
    obtain ⟨k', v'⟩ := m'
    rw [printMembers_roundtrip k' v' ms' d dd (f1 + 1) rest hwms.1 hwms.2
      (by omega)]
    rfl
termination_by fuel
decreasing_by all_goals (simp_wf; omega)

end

theorem expectTail_ok {kw : List Char} {v0 v : JsonValue} {l r : List Char}
    (h : expectTail kw v0 l = .ok (v, r)) : v = v0 := by
  unfold expectTail at h
  split at h
  · simp only [Except.ok.injEq, Prod.mk.injEq] at h
    exact h.1.symm
  · exact Except.noConfusion h

theorem parseValueCore_cons2 (f : Nat) (c : Char) (r : List Char) :
    parseValueCore f (c :: r) =
      (if c = 'n' then expectTail ['u', 'l', 'l'] .null r
       else if c = 't' then expectTail ['r', 'u', 'e'] (.bool true) r
       else if c = 'f' then expectTail ['a', 'l', 's', 'e'] (.bool false) r
       else if c = '"' then
         (parseStringBody r).map fun p => (.str ⟨p.1⟩, p.2)
       else if c = '-' || isDigit c then
         (parseNumCore (c :: r)).map fun p => (.num p.1, p.2)
       else if c = '[' then
         (if (skipWs r).head? = some ']' then
            .ok (.arr [], (skipWs r).tail)
          else
            match f with
            | 0 => .error ⟨"recursion limit exceeded", skipWs r⟩
            | g + 1 => (parseElems g (skipWs r)).map fun p => (.arr p.1, p.2))
       else if c = '{' then
         (if (skipWs r).head? = some '}' then
            .ok (.obj [], (skipWs r).tail)
          else
            match f with
            | 0 => .error ⟨"recursion limit exceeded", skipWs r⟩
            | g + 1 =>
              (parseMembers g (skipWs r)).map
                fun p => (.obj (buildObj p.1), p.2))
       else .error ⟨"expected value", r⟩) := by
  cases f with
  | zero => rfl
  | succ g => rfl

/-- Every value produced by the parser is well-formed: objects built with
`buildObj` have distinct keys at every level. -/
theorem parse_wf (fuel : Nat) :
    (∀ l v r, parseValueCore fuel l = .ok (v, r) → wfB v = true) ∧
    (∀ l vs r, parseElems fuel l = .ok (vs, r) → wfL vs = true) ∧
    (∀ l ms r, parseMembers fuel l = .ok (ms, r) → wfM ms = true) := by
  induction fuel using Nat.strong_induction_on with
  | _ fuel ih =>
    have hV : ∀ g, g < fuel → ∀ l v r, parseValue g l = .ok (v, r) →
        wfB v = true := by
      intro g hg l v r h
      cases g with
      | zero => exact Except.noConfusion h
      | succ g1 =>
        rw [parseValue_succ] at h
        exact (ih g1 (by omega)).1 _ _ _ h
    refine ⟨?_, ?_, ?_⟩
    · intro l v r h
      cases l with
      | nil =>
        cases fuel with
        | zero => exact Except.noConfusion h
        | succ g => exact Except.noConfusion h
      | cons c cs =>
        rw [parseValueCore_cons2] at h
        split at h
        · rw [expectTail_ok h]
          simp [wfB]
        · split at h
          · rw [expectTail_ok h]
            simp [wfB]
          · split at h
            · rw [expectTail_ok h]
              simp [wfB]
            · split at h
              · cases hsb : parseStringBody cs with
                | error e =>
                  rw [hsb] at h
                  exact Except.noConfusion h
                | ok p =>
                  rw [hsb] at h
                  simp only [Except.map, Except.ok.injEq, Prod.mk.injEq] at h
                  rw [← h.1]
                  simp [wfB]
              · split at h
                · cases hnc : parseNumCore (c :: cs) with
                  | error e =>
                    rw [hnc] at h
                    exact Except.noConfusion h
                  | ok p =>
                    rw [hnc] at h
                    simp only [Except.map, Except.ok.injEq, Prod.mk.injEq] at h
                    rw [← h.1]
                    simp [wfB]
                · split at h
                  · split at h
                    · simp only [Except.ok.injEq, Prod.mk.injEq] at h
                      rw [← h.1]
                      simp [wfB, wfL]
                    · split at h
                      · exact Except.noConfusion h
                      · rename_i g
                        cases hpe : parseElems g (skipWs cs) with
                        | error e =>
                          rw [hpe] at h
                          exact Except.noConfusion h
                        | ok p =>
                          rw [hpe] at h
                          simp only [Except.map, Except.ok.injEq,
                            Prod.mk.injEq] at h
                          rw [← h.1]
                          simp only [wfB]
                          exact (ih g (by omega)).2.1 _ _ _ hpe
                  · split at h
                    · split at h
                      · simp only [Except.ok.injEq, Prod.mk.injEq] at h
                        rw [← h.1]
                        simp [wfB, wfM, keysNodup]
                      · split at h
                        · exact Except.noConfusion h
                        · rename_i g
                          cases hpm : parseMembers g (skipWs cs) with
                          | error e =>
                            rw [hpm] at h
                            exact Except.noConfusion h
                          | ok p =>
                            rw [hpm] at h
                            simp only [Except.map, Except.ok.injEq,
                              Prod.mk.injEq] at h
                            rw [← h.1]
                            simp only [wfB, Bool.and_eq_true]
                            exact ⟨keysNodup_buildObj p.1,
                              wfM_buildObj p.1
                                ((ih g (by omega)).2.2 _ _ _ hpm)⟩
                    · exact Except.noConfusion h
    · intro l vs r h
      cases fuel with
      | zero => exact Except.noConfusion h
      | succ f =>
        rw [parseElems_succ] at h
        cases hpv : parseValue f l with
        | error e =>
          rw [hpv] at h
          exact Except.noConfusion h
        | ok p =>
          obtain ⟨v0, r0⟩ := p
          rw [hpv] at h
          simp only [] at h
          cases hs : skipWs r0 with
          | nil =>
            rw [hs] at h
            exact Except.noConfusion h
          | cons c r2 =>
            rw [hs] at h
            simp only [] at h
            split at h
            · cases hpe : parseElems f r2 with
              | error e =>
                rw [hpe] at h
                exact Except.noConfusion h
              | ok q =>
                rw [hpe] at h
                simp only [Except.map, Except.ok.injEq, Prod.mk.injEq] at h
                rw [← h.1]
                simp only [wfL, Bool.and_eq_true]
                exact ⟨hV f (by omega) _ _ _ hpv,
                  (ih f (by omega)).2.1 _ _ _ hpe⟩
            · split at h
              · simp only [Except.ok.injEq, Prod.mk.injEq] at h
                rw [← h.1]
                simp only [wfL, Bool.and_true]
                exact hV f (by omega) _ _ _ hpv
              · exact Except.noConfusion h
    · intro l ms r h
      cases fuel with
      | zero => exact Except.noConfusion h
      | succ f =>
        rw [parseMembers_succ] at h
        cases hs : skipWs l with
        | nil =>
          rw [hs] at h
          exact Except.noConfusion h
        | cons cq lr =>
          rw [hs] at h
          simp only [] at h
          split at h
          · cases hsb : parseStringBody lr with
            | error e =>
              rw [hsb] at h
              exact Except.noConfusion h
            | ok pk =>
              obtain ⟨ks, r1⟩ := pk
              rw [hsb] at h
              simp only [] at h
              cases hs2 : skipWs r1 with
              | nil =>
                rw [hs2] at h
                exact Except.noConfusion h
              | cons cc r2 =>
                rw [hs2] at h
                simp only [] at h
                split at h
                · cases hpv : parseValue f r2 with
                  | error e =>
                    rw [hpv] at h
                    exact Except.noConfusion h
                  | ok pv =>
                    obtain ⟨v0, r3⟩ := pv
                    rw [hpv] at h
                    simp only [] at h
                    cases hs3 : skipWs r3 with
                    | nil =>
                      rw [hs3] at h
                      exact Except.noConfusion h
                    | cons cz r4 =>
                      rw [hs3] at h
                      simp only [] at h
                      split at h
                      · cases hpm : parseMembers f r4 with
                        | error e =>
                          rw [hpm] at h
                          exact Except.noConfusion h
                        | ok q =>
                          rw [hpm] at h
                          simp only [Except.map, Except.ok.injEq,
                            Prod.mk.injEq] at h
                          rw [← h.1]
                          simp only [wfM, Bool.and_eq_true]
                          exact ⟨hV f (by omega) _ _ _ hpv,
                            (ih f (by omega)).2.2 _ _ _ hpm⟩
                      · split at h
                        · simp only [Except.ok.injEq, Prod.mk.injEq] at h
                          rw [← h.1]
                          simp only [wfM, Bool.and_true]
                          exact hV f (by omega) _ _ _ hpv
                        · exact Except.noConfusion h
                · exact Except.noConfusion h
          · exact Except.noConfusion h

theorem parseValue_wf (fuel : Nat) (l : List Char) (v : JsonValue)
    (r : List Char) (h : parseValue fuel l = .ok (v, r)) : wfB v = true := by
  cases fuel with
  | zero => exact Except.noConfusion h
  | succ f =>
    rw [parseValue_succ] at h
    exact (parse_wf f).1 _ _ _ h

theorem parseTop_wf (l : List Char) (v : JsonValue)
    (h : parseTop l = .ok v) : wfB v = true := by
  unfold parseTop at h
  cases hpv : parseValue (2 * l.length + 2) l with
  | error e =>
    rw [hpv] at h
    exact Except.noConfusion h
  | ok p =>
    obtain ⟨v0, r0⟩ := p
    rw [hpv] at h
    simp only [] at h
    cases hs : skipWs r0 with
    | nil =>
      rw [hs] at h
      simp only [Except.ok.injEq] at h
      rw [← h]
      exact parseValue_wf _ _ _ _ hpv
    | cons c r2 =>
      rw [hs] at h
      exact Except.noConfusion h

theorem serde_from_str_wf (s : String) (v : JsonValue)
    (h : serde_from_str s = .ok v) : wfB v = true := by
  unfold serde_from_str at h
  cases hp : parseTop s.data with
  | error e =>
    rw [hp] at h
    exact Except.noConfusion h
  | ok v0 =>
    rw [hp] at h
    simp only [Except.ok.injEq] at h
    rw [← h]
    exact parseTop_wf _ _ hp

/-- The fuel needed to re-parse a printed value is bounded by its printed
length, so `parseTop`'s fuel budget `2 * length + 2` always suffices. -/
theorem fn_le_len (n : Nat) :
    (∀ v : JsonValue, sizeOf v ≤ n → ∀ d, fnV v ≤ (printVal d v).length) ∧
    (∀ (x : JsonValue) (xs : List JsonValue), 1 + sizeOf x + sizeOf xs ≤ n →
      ∀ d, fnE x xs ≤ (printElems d x xs).length) ∧
    (∀ (k : String) (v : JsonValue) (ms : List (String × JsonValue)),
      1 + sizeOf v + sizeOf ms ≤ n →
      ∀ d, fnM (k, v) ms ≤ (printMembers d (k, v) ms).length) := by
  induction n using Nat.strong_induction_on with
  | _ n ih =>
    refine ⟨?_, ?_, ?_⟩
    · intro v hs d
      cases v with
      | null =>
        simp only [fnV, printVal, List.length_cons, List.length_nil]
        omega
      | bool b =>
        cases b with
        | true =>
          simp only [fnV, printVal, List.length_cons, List.length_nil]
          omega
        | false =>
          simp only [fnV, printVal, List.length_cons, List.length_nil]
          omega
      | num m =>
        simp only [fnV, printVal]
        obtain ⟨_, c, t, hct, _, _⟩ := printNatChars_spec m.natAbs
        unfold printIntChars
        by_cases hm : m < 0
        · rw [if_pos hm]
          simp only [List.length_cons]
          omega
        · rw [if_neg hm, hct]
          simp only [List.length_cons]
          omega
      | str s =>
        simp only [fnV, printVal, printStringChars, List.length_cons,
          List.length_append, List.length_nil]
        omega
      | arr xs =>
        cases xs with
        | nil =>
          simp only [fnV, printVal, List.length_cons, List.length_nil]
          omega
        | cons x xs =>
          have hsv : sizeOf (JsonValue.arr (x :: xs)) =
              2 + sizeOf x + sizeOf xs := by
            simp
            omega
          simp only [fnV, printVal, List.length_cons, List.length_append]
          have hle := (ih (n - 1) (by omega)).2.1 x xs (by omega) (d + 1)
          omega
      | obj ms =>
        cases ms with
        | nil =>
          simp only [fnV, printVal, List.length_cons, List.length_nil]
          omega
        | cons m ms' =>
          obtain ⟨k, v⟩ := m
          have hsv : sizeOf (JsonValue.obj ((k, v) :: ms')) =
              3 + sizeOf k + sizeOf v + sizeOf ms' := by
            simp
            omega
          simp only [fnV, printVal, List.length_cons, List.length_append]
          have hle := (ih (n - 1) (by omega)).2.2 k v ms' (by omega) (d + 1)
          omega
    · intro x xs hsz d
      cases xs with
      | nil =>
        have h0 : sizeOf ([] : List JsonValue) = 1 := by simp
        rw [fnE, printElems]
        simp only [List.length_cons, List.length_append]
        have hle := (ih (n - 1) (by omega)).1 x (by omega) d
        omega
      | cons y ys =>
        have hc : sizeOf (y :: ys) = 1 + sizeOf y + sizeOf ys := by
          simp
        rw [fnE, printElems]
        simp only [List.length_cons, List.length_append]
        have h1 := (ih (n - 1) (by omega)).1 x (by omega) d
        have h2 := (ih (n - 1) (by omega)).2.1 y ys (by omega) d
        omega
    · intro k v ms hsz d
      cases ms with
      | nil =>
        have h0 : sizeOf ([] : List (String × JsonValue)) = 1 := by simp
        rw [fnM, printMembers]
        simp only [List.length_cons, List.length_append]
        have hle := (ih (n - 1) (by omega)).1 v (by omega) d
        omega
      | cons m' ms' =>
        obtain ⟨k', v'⟩ := m'
        have hc : sizeOf ((k', v') :: ms') =
            2 + sizeOf k' + sizeOf v' + sizeOf ms' := by
          simp
          omega
        rw [fnM, printMembers]
        simp only [List.length_cons, List.length_append]
        have h1 := (ih (n - 1) (by omega)).1 v (by omega) d
        have h2 := (ih (n - 1) (by omega)).2.2 k' v' ms' (by omega) d
        omega

theorem fnV_le_len (v : JsonValue) (d : Nat) :
    fnV v ≤ (printVal d v).length :=
  (fn_le_len (sizeOf v)).1 v (le_refl _) d

/-- Re-parsing the pretty-printed form of a well-formed value gives back
exactly that value:  `serde_json` pretty output is a parse fixed point. -/
theorem serde_roundtrip (v : JsonValue) (h : wfB v = true) :
    serde_from_str (serde_to_string_pretty v) = .ok v := by
  have hdata : (serde_to_string_pretty v).data = printVal 0 v := rfl
  unfold serde_from_str parseTop
  rw [hdata]
  have hp := printVal_roundtrip v 0 (2 * (printVal 0 v).length + 2) [] h
    (by have := fnV_le_len v 0; omega) notNumCont_nil
  rw [List.append_nil] at hp
  rw [hp]
  rfl

/-- C9: when `format_json` succeeds on `x` with output `y`, running it again
on `y` succeeds and returns `y` unchanged — formatting already-pretty JSON is
idempotent, byte for byte. -/
theorem format_json_idempotent (x y : String) (h : format_json x = .ok y) :
    format_json y = .ok y := by
  unfold format_json at h
  cases hs : serde_from_str x with
  | error e =>
    obtain ⟨el, ec, em⟩ := e
    rw [hs] at h
    exact Except.noConfusion h
  | ok parsed =>
    rw [hs] at h
    simp only [Except.ok.injEq] at h
    have hwf : wfB parsed = true := serde_from_str_wf x parsed hs
    rw [← h]
    unfold format_json
    rw [serde_roundtrip parsed hwf]

/-- Witness for C9 at the concrete input "1". -/
theorem format_json_idempotent_witness :
    format_json "1" = .ok "1" ∧ format_json "1" = .ok "1" :=
  ⟨format_json_one, format_json_idempotent "1" "1" format_json_one⟩

end Devmate
